import Mathlib

/-!
# A verification of the panaani dereplication core

Shallow embedding of the iterative dereplication controller of the
`panaani` crate (`src/lib.rs`, `src/clust.rs`, `src/dist.rs`) together
with proofs of the specified properties: partition well-formedness of
the dendrogram cut, threshold monotonicity, the distance-adapter
filtering rule, coverage/uniqueness of the final cluster assignment,
singleton preservation, batch growth, termination behaviour of the
batching loop, and the fatal-lookup behaviour on unsketchable inputs.

Machine floats (`f32`) are modelled as `Option ℚ` where `none` stands
for NaN; the only float operations the core performs are order
comparisons, NaN tests and the subtraction `1.0 - x`, all of which are
exact in this model.  External collaborators (the skani similarity
estimator, the kodama linkage builder, the GGCAT pangenome builder and
the thread-local random number generator) are modelled as explicit
functional parameters, as the specification treats them as external
interfaces.  Rust `HashMap`s are modelled as insertion-ordered
association lists; iteration order of a `HashMap` is arbitrary, and the
theorems below do not depend on which order is chosen.  Fallible
operations (panicking `unwrap`/indexing/`chunks(0)`/`% 0`) and the one
genuinely divergent loop are modelled with `Except`.
-/

namespace Panaani

/-- Exact rational subtraction.  `Rat.sub` is `@[irreducible]`, so this
kernel-computable form is used inside executable definitions; `qsub_eq`
below proves it equal to ordinary subtraction. -/
def qsub (a b : ℚ) : ℚ := mkRat (a.num * b.den - b.num * a.den) (a.den * b.den)

/-- Kernel-computable decision procedure for lexicographic order on
character lists (the built-in `String.decidableLT` is well-founded
recursive and does not evaluate inside the kernel). -/
def listLtB : List Char → List Char → Bool
  | [], [] => false
  | [], _ :: _ => true
  | _ :: _, [] => false
  | a :: as, b :: bs => if a < b then true else if b < a then false else listLtB as bs

/-- Rust's `String` `Ord`: lexicographic order on the character lists
(equivalent to Mathlib's `<` on `String` by `String.lt_iff_toList_lt`). -/
def strLt (a b : String) : Prop := List.lt a.data b.data

/-- Non-strict string order, used for the stable sorts of the code. -/
def strLE (a b : String) : Prop := strLt a b ∨ a = b

/-- Model of an `f32` value: `none` is NaN, `some q` an ordinary value. -/
abbrev F32 := Option ℚ

/-- `a > b` on `f32` (any comparison involving NaN is false). -/
def fgt : F32 → F32 → Bool
  | some a, some b => decide (b < a)
  | _, _ => false

/-- `a < b` on `f32` (any comparison involving NaN is false). -/
def flt : F32 → F32 → Bool
  | some a, some b => decide (a < b)
  | _, _ => false

/-- `a <= b` on `f32` (any comparison involving NaN is false). -/
def fle : F32 → F32 → Bool
  | some a, some b => decide (a ≤ b)
  | _, _ => false

/-- `x.is_nan()`. -/
def fisnan : F32 → Bool
  | none => true
  | some _ => false

/-- `f32` subtraction, exact in the rational model; NaN propagates. -/
def fsub : F32 → F32 → F32
  | some a, some b => some (a - b)
  | _, _ => none

instance : DecidableRel strLt := fun a b =>
  decidable_of_iff (listLtB a.data b.data = true) (by
    suffices h : ∀ as bs : List Char, listLtB as bs = true ↔ List.lt as bs by
      exact h a.data b.data
    intro as
    induction as with
    | nil =>
      intro bs
      cases bs with
      | nil =>
        constructor
        · intro h; simp [listLtB] at h
        · intro h; cases h
      | cons b bs => simpa [listLtB] using List.lt.nil b bs
    | cons a as ih =>
      intro bs
      cases bs with
      | nil =>
        constructor
        · intro h; simp [listLtB] at h
        · intro h; cases h
      | cons b bs =>
        by_cases hab : a < b
        · simpa [listLtB, hab] using List.lt.head as bs hab
        · by_cases hba : b < a
          · simp only [listLtB, if_neg hab, if_pos hba]
            constructor
            · intro h; simp at h
            · intro h
              cases h with
              | head _ _ h => exact absurd h hab
              | tail h1 h2 _ => exact absurd hba h2
          · simp only [listLtB, if_neg hab, if_neg hba]
            rw [ih bs]
            constructor
            · intro h; exact List.lt.tail hab hba h
            · intro h
              cases h with
              | head _ _ h => exact absurd h hab
              | tail _ _ h => exact h)

instance : DecidableRel strLE := fun a b => by
  unfold strLE; infer_instance

namespace dist

/-- `src/dist.rs::filter_ani` (lines 52-59): keep an ANI estimate only if it
is strictly inside (0,1), is not NaN, and the aligned fraction exceeds the
configured minimum on the reference or on the query side; otherwise return
`0.0`. -/
def filter_ani (ani ref_align_frac query_align_frac ref_min_align_frac
    query_min_align_frac : F32) : F32 :=
  if fgt ani (some 0) && flt ani (some 1) && !fisnan ani
      && (fgt ref_align_frac ref_min_align_frac
          || fgt query_align_frac query_min_align_frac) then
    ani
  else
    some 0

/-- The fields of `skani::types::AniEstResult` the core reads. -/
structure AniEstResult where
  ani : F32
  align_fraction_ref : F32
  align_fraction_query : F32

/-- One raw pairwise result as delivered on the channel in
`src/dist.rs::ani_from_fastx_files`: the two file names and the estimate. -/
abbrev RawPair := String × String × AniEstResult

/-- The comparator of `src/dist.rs` lines 124-127: order by the first file
name, ties broken by the second file name. -/
def rawLE (a b : RawPair) : Prop :=
  strLt a.1 b.1 ∨ (a.1 = b.1 ∧ strLE a.2.1 b.2.1)

instance : DecidableRel rawLE := fun a b => by
  unfold rawLE; infer_instance

instance : IsTotal RawPair rawLE where
  total a b := by
    have bridge : ∀ x y : String, strLt x y ↔ x < y := fun x y => by
      unfold strLt
      rw [List.lt_iff_lex_lt]
      exact Iff.symm String.lt_iff_toList_lt
    unfold rawLE strLE
    rcases lt_trichotomy a.1 b.1 with h | h | h
    · exact Or.inl (Or.inl ((bridge _ _).mpr h))
    · rcases lt_trichotomy a.2.1 b.2.1 with h2 | h2 | h2
      · exact Or.inl (Or.inr ⟨h, Or.inl ((bridge _ _).mpr h2)⟩)
      · exact Or.inl (Or.inr ⟨h, Or.inr h2⟩)
      · exact Or.inr (Or.inr ⟨h.symm, Or.inl ((bridge _ _).mpr h2)⟩)
    · exact Or.inr (Or.inl ((bridge _ _).mpr h))

instance : IsTrans RawPair rawLE where
  trans a b c hab hbc := by
    have bridge : ∀ x y : String, strLt x y ↔ x < y := fun x y => by
      unfold strLt
      rw [List.lt_iff_lex_lt]
      exact Iff.symm String.lt_iff_toList_lt
    unfold rawLE strLE at *
    rcases hab with h1 | ⟨e1, l1⟩
    · rcases hbc with h2 | ⟨e2, _⟩
      · exact Or.inl ((bridge _ _).mpr (((bridge _ _).mp h1).trans ((bridge _ _).mp h2)))
      · exact Or.inl (e2 ▸ h1)
    · rcases hbc with h2 | ⟨e2, l2⟩
      · exact Or.inl (e1 ▸ h2)
      · refine Or.inr ⟨e1.trans e2, ?_⟩
        rcases l1 with l1 | l1
        · rcases l2 with l2 | l2
          · exact Or.inl ((bridge _ _).mpr (((bridge _ _).mp l1).trans ((bridge _ _).mp l2)))
          · exact Or.inl (l2 ▸ l1)
        · rcases l2 with l2 | l2
          · exact Or.inl (l1 ▸ l2)
          · exact Or.inr (l1.trans l2)

/-- The key (pair of file names) of a raw pairwise result. -/
def keyOf (x : RawPair) : String × String := (x.1, x.2.1)

/-- `src/dist.rs::ani_from_fastx_files` (lines 101-138), with the pairwise
estimation abstracted: the parallel workers deliver the raw results on a
channel in an arbitrary order (`raw`); the function sorts them by
(first id, second id) and converts each estimate through `filter_ani`,
using the configured `min_aligned_frac` on both sides. -/
def ani_from_fastx_files (raw : List RawPair) (min_aligned_frac : F32) :
    List (String × String × F32) :=
  (raw.insertionSort rawLE).map fun x =>
    (x.1, x.2.1,
      filter_ani x.2.2.ani x.2.2.align_fraction_ref x.2.2.align_fraction_query
        min_aligned_frac min_aligned_frac)

/-- Order on the output triples by (first id, second id). -/
def outLE (a b : String × String × F32) : Prop :=
  strLt a.1 b.1 ∨ (a.1 = b.1 ∧ strLE a.2.1 b.2.1)

end dist

namespace clust

/-- One merge step of a `kodama::Dendrogram`. -/
structure Step where
  cluster1 : ℕ
  cluster2 : ℕ
  dissimilarity : ℚ
deriving DecidableEq

/-- A `kodama::Dendrogram`: the number of observations (leaves) and the
merge steps.  Leaves are nodes `0..N-1`; step `i` creates node `N+i`. -/
structure Dendrogram where
  steps : List Step
  observations : ℕ

/-- The structural invariants `kodama::linkage` guarantees for its output
(and which §3 of the specification makes part of the `Dendrogram` data
model): exactly `N-1` steps over `N ≥ 1` observations; step `i` merges two
previously existing nodes (indices `< N + i`); every node is merged at most
once; steps are ordered by non-decreasing dissimilarity. -/
def WF (d : Dendrogram) : Prop :=
  d.steps.length + 1 = d.observations ∧
  (∀ i, (h : i < d.steps.length) →
    (d.steps.get ⟨i, h⟩).cluster1 < d.observations + i ∧
    (d.steps.get ⟨i, h⟩).cluster2 < d.observations + i) ∧
  (d.steps.flatMap fun s => [s.cluster1, s.cluster2]).Nodup ∧
  d.steps.Pairwise fun a b => a.dissimilarity ≤ b.dissimilarity

instance (d : Dendrogram) : Decidable (WF d) := by
  unfold WF; infer_instance

/-- Point update of the membership table.  The table models the
`vec![None; 2 * num_seqs - 1]` of `cut_dendrogram`; the index-bound theorem
for claim C10 shows all accesses stay below `2 * num_seqs - 1`. -/
def updateF (f : ℕ → Option ℕ) (i : ℕ) (v : Option ℕ) : ℕ → Option ℕ :=
  fun j => if j = i then v else f j

/-- The body of the reverse traversal of `src/clust.rs::cut_dendrogram`
(lines 25-36) for one enumerated step: if the step's dissimilarity is at or
below the cutoff, allocate a fresh group for node `i + N` unless it already
has one, then propagate that group to both children. -/
def cutStep (N : ℕ) (cutoff : ℚ) (is : ℕ × Step) (st : (ℕ → Option ℕ) × ℕ) :
    (ℕ → Option ℕ) × ℕ :=
  if is.2.dissimilarity ≤ cutoff then
    let c := is.1 + N
    let mem1 := if st.1 c = none then updateF st.1 c (some st.2) else st.1
    let ng1 := if st.1 c = none then st.2 + 1 else st.2
    (updateF (updateF mem1 is.2.cluster1 (mem1 c)) is.2.cluster2 (mem1 c), ng1)
  else
    st

/-- The whole reverse traversal: `foldr` over the enumerated steps applies
`cutStep` to the last step first, i.e. `steps().iter().enumerate().rev()`. -/
def runSteps (N : ℕ) (cutoff : ℚ) (l : List (ℕ × Step))
    (st : (ℕ → Option ℕ) × ℕ) : (ℕ → Option ℕ) × ℕ :=
  l.foldr (cutStep N cutoff) st

/-- The final scan of `cut_dendrogram` (lines 38-46): each leaf keeps its
assigned group; a leaf without one becomes a brand-new singleton group. -/
def assignLeaves : List (Option ℕ) → ℕ → List ℕ
  | [], _ => []
  | some g :: rest, ng => g :: assignLeaves rest ng
  | none :: rest, ng => ng :: assignLeaves rest (ng + 1)

/-- `src/clust.rs::cut_dendrogram` (lines 17-49).  With `N = 0`
observations the expression `2 * num_seqs - 1` underflows `usize` and the
function panics, modelled by `none`. -/
def cut_dendrogram (d : Dendrogram) (height : ℚ) : Option (List ℕ) :=
  if d.observations = 0 then none
  else
    let cutoff := qsub 1 height
    let st := runSteps d.observations cutoff d.steps.enum (fun _ => none, 0)
    some (assignLeaves ((List.range d.observations).map st.1) st.2)

/-- The similarity-to-dissimilarity conversion applied to each entry before
it is handed to `kodama::linkage` in `src/clust.rs::single_linkage_cluster`
(lines 56-65): a similarity strictly inside (0,1) and not NaN becomes
`1 - s`, everything else becomes the maximal dissimilarity `1.0`. -/
def linkage_dissim (x : F32) : F32 :=
  if fgt x (some 0) && flt x (some 1) && !fisnan x then
    fsub (some 1) x
  else
    some 1

/-! Auxiliary notions used to state the traversal invariant of
`cut_dendrogram`. -/

/-- The step at index `j` (the default value is irrelevant: every use is
guarded by `j < S.length`). -/
def stepAt (S : List Step) (j : ℕ) : Step := S.getD j ⟨0, 0, 0⟩

/-- Step `j` exists and its dissimilarity is at or below the cutoff. -/
def accAt (S : List Step) (cutoff : ℚ) (j : ℕ) : Prop :=
  j < S.length ∧ (stepAt S j).dissimilarity ≤ cutoff

instance (S : List Step) (cutoff : ℚ) (j : ℕ) : Decidable (accAt S cutoff j) := by
  unfold accAt; infer_instance

/-- Node `v` is a child of step `j`. -/
def isChildOf (S : List Step) (j v : ℕ) : Prop :=
  j < S.length ∧ (v = (stepAt S j).cluster1 ∨ v = (stepAt S j).cluster2)

instance (S : List Step) (j v : ℕ) : Decidable (isChildOf S j v) := by
  unfold isChildOf; infer_instance

/-- Node `v` is a child of some step accepted at the cutoff. -/
def accChild (S : List Step) (cutoff : ℚ) (v : ℕ) : Prop :=
  ∃ j < S.length, accAt S cutoff j ∧ isChildOf S j v

instance (S : List Step) (cutoff : ℚ) (v : ℕ) : Decidable (accChild S cutoff v) := by
  unfold accChild; infer_instance

/-- Invariant of the reverse traversal of `cut_dendrogram` at the moment
the steps with indices `≥ k` have been processed: every stored group id is
below the counter; every allocated group id is stored at some node that is
not a child of a pending step and is a leaf or a pending accepted internal
node; a node holds a group iff an already-processed accepted step created
or propagated one there; and the counter counts the processed accepted
steps whose node has no accepted parent. -/
def StateInv (S : List Step) (cutoff : ℚ) (N k : ℕ)
    (st : (ℕ → Option ℕ) × ℕ) : Prop :=
  (∀ v g, st.1 v = some g → g < st.2) ∧
  (∀ g, g < st.2 → ∃ v, st.1 v = some g ∧
    (∀ j, j < k → ¬ isChildOf S j v) ∧
    (v < N ∨ ∃ j, j < k ∧ accAt S cutoff j ∧ v = N + j)) ∧
  (∀ v, (st.1 v).isSome ↔
    ∃ j, k ≤ j ∧ accAt S cutoff j ∧ (v = N + j ∨ isChildOf S j v)) ∧
  st.2 = ((Finset.Ico k S.length).filter
    (fun j => accAt S cutoff j ∧ ¬ accChild S cutoff (N + j))).card

end clust

/-! ## `src/lib.rs`: the iteration controller

`HashMap<String, Vec<String>>` is modelled as an insertion-ordered
association list; `HashMap` iteration order is arbitrary in Rust and the
theorems below hold for any order.  The external collaborators are
parameters: `hclust` abstracts the estimator → adapter → linkage → cut
pipeline run on the (distinct) representative files of a chunk, returning
one flat group id per file; `guide` is the same pipeline with the cheap
guide configuration; `salt : round → chunk index → u64 draw` abstracts
`rand::thread_rng`.  Panicking operations return `Except RunErr`. -/

/-- A cluster assignment: label → member sequence files. -/
abbrev Assignment := List (String × List String)

instance {ε α : Type} [DecidableEq ε] [DecidableEq α] : DecidableEq (Except ε α) :=
  fun x y =>
  match x, y with
  | .ok a, .ok b =>
    if h : a = b then .isTrue (h ▸ rfl) else .isFalse fun he => h (Except.ok.inj he)
  | .error a, .error b =>
    if h : a = b then .isTrue (h ▸ rfl) else .isFalse fun he => h (Except.error.inj he)
  | .ok _, .error _ => .isFalse Except.noConfusion
  | .error _, .ok _ => .isFalse Except.noConfusion

/-- The failure modes of the controller (all are panics of the Rust code,
except `adjustDiverge`, which marks non-termination of the
degenerate-remainder loop). -/
inductive RunErr where
  /-- `match_clustering_results` line 65: a fasta/fastq failed sketching. -/
  | sketchFail
  /-- line 201: `cluster_contents.get(y).unwrap()` on an unknown label. -/
  | missingKey
  /-- line 198: `chunks(0)` panics. -/
  | chunkSize
  /-- line 225: `n_remaining % 0` panics. -/
  | adjustPanic
  /-- lines 225-227 loop forever (`1 % b == 1` for every `b ≥ 2`). -/
  | adjustDiverge
deriving DecidableEq

/-- `HashMap` entry update used by `assign_seqs`: push `v` onto the vector
of key `k`, inserting the key if absent. -/
def insertPush : Assignment → String → String → Assignment
  | [], k, v => [(k, [v])]
  | (k', vs) :: rest, k, v =>
    if k' = k then (k', vs ++ [v]) :: rest else (k', vs) :: insertPush rest k v

/-- `src/lib.rs::assign_seqs` (lines 73-88): map each cluster name to the
sequences assigned to it, in input order. -/
def assign_seqs (seqs clusters : List String) : Assignment :=
  (seqs.zip clusters).foldl (fun m x => insertPush m x.2 x.1) []

/-- `prev_assignments.iter().map(|x| x.1).flatten()`. -/
def valuesFlat (m : Assignment) : List String := (m.map Prod.snd).flatten

/-- `prev_assignments.iter().map(|x| vec![x.0; x.1.len()]).flatten()`. -/
def labelsFlat (m : Assignment) : List String :=
  (m.map fun kv => List.replicate kv.2.length kv.1).flatten

/-- `cluster_contents.iter().map(|x| x.0)`. -/
def keysOf (m : Assignment) : List String := m.map Prod.fst

/-- `itertools::unique`: keep the first occurrence of each element. -/
def uniqueFirst (l : List String) : List String :=
  l.foldl (fun acc x => if x ∈ acc then acc else acc ++ [x]) []

/-- Association-list lookup (`HashMap::get`). -/
def lookupA {α : Type} : List (String × α) → String → Option α
  | [], _ => none
  | (k, v) :: rest, x => if k = x then some v else lookupA rest x

/-- `HashMap::insert`: overwrite an existing key or append a new one. -/
def insertOv : List (String × ℕ) → String → ℕ → List (String × ℕ)
  | [], k, v => [(k, v)]
  | (k', v') :: rest, k, v =>
    if k' = k then (k, v) :: rest else (k', v') :: insertOv rest k v

/-- Build the old-cluster → flat-group map of `match_clustering_results`
by successive `HashMap::insert`s. -/
def buildMap (l : List (String × ℕ)) : List (String × ℕ) :=
  l.foldl (fun m x => insertOv m x.1 x.2) []

/-- The `.map(...)` over `old_clusters` in `match_clustering_results`:
look every old cluster label up in the mapping and build the new label
`{out_prefix}{group}.dbg.fasta`; a failed lookup is the fatal
"failed skani sketching" panic, modelled as `none`. -/
def relabel (mapping : List (String × ℕ)) (pre : String) :
    List String → Option (List String)
  | [] => some []
  | x :: xs =>
    match lookupA mapping x, relabel mapping pre xs with
    | some g, some rest => some ((pre ++ toString g ++ ".dbg.fasta") :: rest)
    | _, _ => none

/-- `src/lib.rs::match_clustering_results` (lines 46-71): zip the sorted
representative files with the flat clustering result, then relabel every
old cluster. -/
def match_clustering_results (fastx_files old_clusters : List String)
    (hclust_res : List ℕ) (pre : String) : Option (List String) :=
  relabel (buildMap ((fastx_files.insertionSort strLE).zip hclust_res)) pre
    old_clusters

/-- `src/lib.rs::dereplicate_iter` (lines 90-134) with the external
pipeline abstracted by `hclust`.  The GGCAT pangenome build (lines
127-131) is an external side effect that does not touch the assignment and
is omitted.  The zip at lines 117-124 renames every new cluster of size
one to its single member's own identifier. -/
def dereplicate_iter (hclust : List String → List ℕ) (prev : Assignment)
    (pre : String) : Except RunErr Assignment :=
  let seq_files := valuesFlat prev
  let old_clusters := labelsFlat prev
  let fastx_files := uniqueFirst old_clusters
  match match_clustering_results fastx_files old_clusters (hclust fastx_files)
      pre with
  | none => .error .sketchFail
  | some new1 =>
    let a1 := assign_seqs seq_files new1
    let new2 := (seq_files.zip new1).map fun x =>
      if ((lookupA a1 x.2).getD []).length = 1 then x.1 else x.2
    .ok (assign_seqs seq_files new2)

/-- The comparator of `src/lib.rs::guide_batching` lines 157-160: sort by
coarse group id, ties broken by file name. -/
def guideLE (a b : String × ℕ) : Prop :=
  a.2 < b.2 ∨ (a.2 = b.2 ∧ strLE a.1 b.1)

instance : DecidableRel guideLE := fun a b => by
  unfold guideLE; infer_instance

/-- `src/lib.rs::guide_batching` (lines 136-164) with the cheap pipeline
abstracted by `guide`: order the current cluster names by
(coarse group, name). -/
def guide_batching (guide : List String → List ℕ) (seq_files : List String) :
    List String :=
  ((seq_files.zip (guide seq_files)).insertionSort guideLE).map Prod.fst

/-- `PanaaniParams` of `src/lib.rs` (the fields the core reads). -/
structure PanaaniParams where
  batch_step : ℕ
  batch_step_strategy : String
  max_iters : ℕ
  temp_dir : String
  guided : Bool
  external_clustering : Option (List String)
  initial_batches : Option (List String)

/-- `PanaaniParams::default()`. -/
def defaultParams : PanaaniParams :=
  ⟨50, "linear", 10, "./", false, none, none⟩

/-- `slice::chunks(n)` (fuel-bounded helper; `chunksOf` supplies
`l.length` fuel, which suffices whenever `n ≥ 1`). -/
def chunksAux {α : Type} (n : ℕ) : ℕ → List α → List (List α)
  | 0, _ => []
  | _ + 1, [] => []
  | f + 1, x :: xs => (x :: xs).take n :: chunksAux n f ((x :: xs).drop n)

/-- `slice::chunks(n)`: consecutive chunks of length `n`, last one
possibly shorter.  `chunks(0)` panics in Rust; the caller guards it. -/
def chunksOf {α : Type} (n : ℕ) (l : List α) : List (List α) :=
  chunksAux n l.length l

/-- The `match my_params.batch_step_strategy.as_str()` of lines 217-221:
`linear` adds `batch_step`, `double` doubles, anything else falls back to
adding `batch_step`. -/
def growBatch (strategy : String) (step bs : ℕ) : ℕ :=
  if strategy = "linear" then bs + step
  else if strategy = "double" then bs * 2
  else bs + step

/-- Fuel-bounded unfolding of `while n % b == 1 { b += 1 }`. -/
def adjustGo : ℕ → ℕ → ℕ → ℕ
  | 0, _, b => b
  | f + 1, n, b => if n % b = 1 then adjustGo f n (b + 1) else b

/-- The degenerate-remainder adjustment, lines 223-227: `b = 0` panics on
`% 0`; for `n = 1, b ≥ 2` the Rust loop never exits (`1 % b == 1` for all
`b ≥ 2`), modelled as `adjustDiverge`; otherwise `n + 2` steps of fuel are
enough for the loop to stop. -/
def adjustBatch (n b : ℕ) : Except RunErr ℕ :=
  if b = 0 then .error .adjustPanic
  else if n = 1 ∧ 2 ≤ b then .error .adjustDiverge
  else .ok (adjustGo (n + 2) n b)

/-- Gather one chunk's clusters: `cluster_contents.get(y).unwrap()` for
every label of the chunk (lines 200-201); an unknown label panics. -/
def gatherChunk (cc : Assignment) : List String → Option Assignment
  | [] => some []
  | y :: ys =>
    match lookupA cc y, gatherChunk cc ys with
    | some vs, some rest => some ((y, vs) :: rest)
    | _, _ => none

/-- Gather all chunks. -/
def gatherAll (cc : Assignment) : List (List String) → Option (List Assignment)
  | [] => some []
  | ch :: chs =>
    match gatherChunk cc ch, gatherAll cc chs with
    | some bi, some rest => some (bi :: rest)
    | _, _ => none

/-- Run `dereplicate_iter` on every chunk (lines 197-210), handing chunk
`i` of round `iter` the output name `{temp_dir}/{iter}_{salt}-`. -/
def runChunks (hclust : List String → List ℕ) (mkPre : ℕ → String) :
    ℕ → List Assignment → Except RunErr (List Assignment)
  | _, [] => .ok []
  | i, bi :: rest =>
    match dereplicate_iter hclust bi (mkPre i), runChunks hclust mkPre (i + 1) rest with
    | .ok a, .ok tl => .ok (a :: tl)
    | .error e, _ => .error e
    | .ok _, .error e => .error e

/-- The batch ordering of one round (lines 187-194): the caller-supplied
`initial_batches` override on the first round, the guided ordering when
`guided` is set, and the current `HashMap` key order otherwise. -/
def batchOrder (guide : List String → List ℕ) (P : PanaaniParams)
    (iter : ℕ) (cc : Assignment) : List String :=
  if iter = 0 ∧ P.initial_batches.isSome then P.initial_batches.getD []
  else if P.guided then guide_batching guide (keysOf cc)
  else keysOf cc

/-- One batching round (lines 196-213): chunk the ordered labels, gather
each chunk's clusters, run `dereplicate_iter` per chunk with the salted
name, and merge all chunk results into the round's new assignment. -/
def roundOf (hclust guide : List String → List ℕ) (salt : ℕ → ℕ → ℕ)
    (P : PanaaniParams) (iter bs : ℕ) (cc : Assignment) :
    Except RunErr Assignment :=
  match gatherAll cc (chunksOf bs (batchOrder guide P iter cc)) with
  | none => .error .missingKey
  | some batchInputs =>
    match runChunks hclust
        (fun ci => P.temp_dir ++ "/" ++ toString iter ++ "_"
          ++ toString (salt iter ci) ++ "-") 0 batchInputs with
    | .error e => .error e
    | .ok ncs =>
      .ok (assign_seqs ((ncs.map valuesFlat).flatten)
        ((ncs.map labelsFlat).flatten))

/-- The approximate-batching loop of `src/lib.rs::dereplicate` (lines
183-228).  The guard `batch_size < n_remaining && iter < max_iters` is
realised by structural recursion on `fuel = max_iters - iter`; on exit the
final `(cluster_contents, iter, batch_size)` is returned. -/
def derepLoop (hclust guide : List String → List ℕ) (salt : ℕ → ℕ → ℕ)
    (P : PanaaniParams) :
    ℕ → ℕ → ℕ → Assignment → Except RunErr (Assignment × ℕ × ℕ)
  | 0, iter, bs, cc => .ok (cc, iter, bs)
  | fuel + 1, iter, bs, cc =>
    if cc.length ≤ bs then .ok (cc, iter, bs)
    else if bs = 0 then .error .chunkSize
    else
      match roundOf hclust guide salt P iter bs cc with
      | .error e => .error e
      | .ok cc2 =>
        match adjustBatch cc2.length
            (growBatch P.batch_step_strategy P.batch_step bs) with
        | .error e => .error e
        | .ok bs2 => derepLoop hclust guide salt P fuel (iter + 1) bs2 cc2

/-- Output comparator of lines 243-246: sort the `(sequence, label)` pairs
by label, ties broken by sequence. -/
def outPairLE (a b : String × String) : Prop :=
  strLt a.2 b.2 ∨ (a.2 = b.2 ∧ strLE a.1 b.1)

instance : DecidableRel outPairLE := fun a b => by
  unfold outPairLE; infer_instance

/-- `src/lib.rs::dereplicate` (lines 166-248): initial assignment from the
external clustering (or one cluster per sequence), the batching loop, the
mandatory final full round with the reserved `panANI-` name, and the
flattened `(sequence, label)` output sorted by (label, sequence). -/
def dereplicate (hclust guide : List String → List ℕ) (salt : ℕ → ℕ → ℕ)
    (seq_files : List String) (dereplicate_params : Option PanaaniParams) :
    Except RunErr (List (String × String)) :=
  let P := dereplicate_params.getD defaultParams
  let cc0 := assign_seqs seq_files (P.external_clustering.getD seq_files)
  match derepLoop hclust guide salt P P.max_iters 0 P.batch_step cc0 with
  | .error e => .error e
  | .ok (ccF, _, _) =>
    match dereplicate_iter hclust ccF "panANI-" with
    | .error e => .error e
    | .ok fin =>
      .ok (((fin.map fun kv => kv.2.map fun s => (s, kv.1)).flatten).insertionSort
        outPairLE)

end Panaani

/-! # Theorems -/

namespace Panaani

theorem qsub_eq (a b : ℚ) : qsub a b = a - b := by
  rw [qsub, Rat.sub_def', Rat.mkRat_eq_div]

namespace clust

theorem updateF_self (f : ℕ → Option ℕ) (i : ℕ) (v : Option ℕ) :
    updateF f i v i = v := by
  simp [updateF]

theorem updateF_ne (f : ℕ → Option ℕ) (i : ℕ) (v : Option ℕ) {j : ℕ}
    (h : j ≠ i) : updateF f i v j = f j := by
  simp [updateF, h]

theorem stepAt_eq_get (S : List Step) (j : ℕ) (h : j < S.length) :
    stepAt S j = S.get ⟨j, h⟩ := by
  rw [stepAt, List.getD_eq_getElem _ _ h, List.get_eq_getElem]

theorem wf_bounds {d : Dendrogram} (h : WF d) :
    ∀ j, j < d.steps.length →
      (stepAt d.steps j).cluster1 < d.observations + j ∧
      (stepAt d.steps j).cluster2 < d.observations + j := by
  intro j hj
  have h2 := h.2.1 j hj
  rwa [stepAt_eq_get _ _ hj]

theorem wf_child_ne {d : Dendrogram} (h : WF d) :
    ∀ j, j < d.steps.length →
      (stepAt d.steps j).cluster1 ≠ (stepAt d.steps j).cluster2 := by
  intro j hj
  have hn := h.2.2.1
  rw [List.nodup_flatMap] at hn
  have hmem : stepAt d.steps j ∈ d.steps := by
    rw [stepAt_eq_get _ _ hj]; exact List.get_mem _ _ _
  have h2 := hn.1 _ hmem
  simpa using h2

theorem wf_child_unique {d : Dendrogram} (h : WF d) :
    ∀ j1 j2 v, isChildOf d.steps j1 v → isChildOf d.steps j2 v → j1 = j2 := by
  have hn := h.2.2.1
  rw [List.nodup_flatMap] at hn
  have hpw := hn.2
  rw [List.pairwise_iff_get] at hpw
  have key : ∀ j1 j2 v, j1 < j2 → isChildOf d.steps j1 v →
      isChildOf d.steps j2 v → False := by
    intro j1 j2 v hlt ⟨hj1, hv1⟩ ⟨hj2, hv2⟩
    have hd := hpw ⟨j1, hj1⟩ ⟨j2, hj2⟩ hlt
    rw [stepAt_eq_get _ _ hj1] at hv1
    rw [stepAt_eq_get _ _ hj2] at hv2
    refine hd (a := v) ?_ ?_
    · rcases hv1 with h1 | h1 <;> simp [h1]
    · rcases hv2 with h2 | h2 <;> simp [h2]
  intro j1 j2 v h1 h2
  rcases Nat.lt_trichotomy j1 j2 with hlt | heq | hgt
  · exact absurd (key j1 j2 v hlt h1 h2) not_false
  · exact heq
  · exact absurd (key j2 j1 v hgt h2 h1) not_false

theorem wf_sorted {d : Dendrogram} (h : WF d) :
    ∀ i j, i ≤ j → j < d.steps.length →
      (stepAt d.steps i).dissimilarity ≤ (stepAt d.steps j).dissimilarity := by
  intro i j hij hj
  rcases eq_or_lt_of_le hij with rfl | hlt
  · exact le_refl _
  · have hp := h.2.2.2
    rw [List.pairwise_iff_get] at hp
    have hi : i < d.steps.length := hlt.trans hj
    have h2 := hp ⟨i, hi⟩ ⟨j, hj⟩ hlt
    rwa [stepAt_eq_get _ _ hi, stepAt_eq_get _ _ hj]

theorem stateInv_init (S : List Step) (cutoff : ℚ) (N k : ℕ)
    (hk : S.length ≤ k) : StateInv S cutoff N k (fun _ => none, 0) := by
  refine ⟨?_, ?_, ?_, ?_⟩
  · intro v g hvg
    exact Option.noConfusion hvg
  · intro g hg
    exact absurd hg (Nat.not_lt_zero g)
  · intro v
    constructor
    · intro hs
      simp at hs
    · rintro ⟨j, hkj, ⟨hjlen, _⟩, _⟩
      omega
  · have he : Finset.Ico k S.length = ∅ := Finset.Ico_eq_empty (by omega)
    rw [he]
    simp

theorem cutStep_skip (N : ℕ) (cutoff : ℚ) (is : ℕ × Step)
    (st : (ℕ → Option ℕ) × ℕ) (h : ¬ is.2.dissimilarity ≤ cutoff) :
    cutStep N cutoff is st = st := by
  simp [cutStep, h]

theorem cutStep_alloc (N : ℕ) (cutoff : ℚ) (is : ℕ × Step)
    (st : (ℕ → Option ℕ) × ℕ) (h : is.2.dissimilarity ≤ cutoff)
    (ha : st.1 (N + is.1) = none) :
    cutStep N cutoff is st =
      (updateF (updateF (updateF st.1 (N + is.1) (some st.2)) is.2.cluster1
        (some st.2)) is.2.cluster2 (some st.2), st.2 + 1) := by
  have hc : is.1 + N = N + is.1 := Nat.add_comm _ _
  simp [cutStep, h, hc, ha, updateF_self]

theorem cutStep_noalloc (N : ℕ) (cutoff : ℚ) (is : ℕ × Step)
    (st : (ℕ → Option ℕ) × ℕ) (w : ℕ) (h : is.2.dissimilarity ≤ cutoff)
    (ha : st.1 (N + is.1) = some w) :
    cutStep N cutoff is st =
      (updateF (updateF st.1 is.2.cluster1 (some w)) is.2.cluster2 (some w),
        st.2) := by
  have hc : is.1 + N = N + is.1 := Nat.add_comm _ _
  simp [cutStep, h, hc, ha]

theorem stateInv_step (S : List Step) (cutoff : ℚ) (N k : ℕ)
    (hB : ∀ j, j < S.length →
      (stepAt S j).cluster1 < N + j ∧ (stepAt S j).cluster2 < N + j)
    (hUniq : ∀ j1 j2 v, isChildOf S j1 v → isChildOf S j2 v → j1 = j2)
    (hCC : ∀ j, j < S.length →
      (stepAt S j).cluster1 ≠ (stepAt S j).cluster2)
    (hSort : ∀ i j, i ≤ j → j < S.length →
      (stepAt S i).dissimilarity ≤ (stepAt S j).dissimilarity)
    (hk : k < S.length) (st : (ℕ → Option ℕ) × ℕ)
    (hInv : StateInv S cutoff N (k + 1) st) :
    StateInv S cutoff N k (cutStep N cutoff (k, stepAt S k) st) := by
  obtain ⟨h1, h2, h3, h4⟩ := hInv
  have hIco : Finset.Ico k S.length = insert k (Finset.Ico (k + 1) S.length) := by
    ext x
    simp only [Finset.mem_Ico, Finset.mem_insert]
    omega
  have hknot : k ∉ Finset.Ico (k + 1) S.length := by
    simp [Finset.mem_Ico]
  by_cases hacc : (stepAt S k).dissimilarity ≤ cutoff
  case neg =>
    rw [cutStep_skip _ _ _ _ hacc]
    have hnacck : ¬ accAt S cutoff k := fun h => hacc h.2
    refine ⟨h1, ?_, ?_, ?_⟩
    · intro g hg
      obtain ⟨v, hv, hprot, hpend⟩ := h2 g hg
      refine ⟨v, hv, fun j hj => hprot j (by omega), ?_⟩
      rcases hpend with h | ⟨j, hj, hja, hjv⟩
      · exact Or.inl h
      · have hjk : j ≠ k := fun he => hnacck (he ▸ hja)
        exact Or.inr ⟨j, by omega, hja, hjv⟩
    · intro v
      rw [h3 v]
      constructor
      · rintro ⟨j, hkj, hja, hv⟩
        exact ⟨j, by omega, hja, hv⟩
      · rintro ⟨j, hkj, hja, hv⟩
        have hjk : j ≠ k := fun he => hnacck (he ▸ hja)
        exact ⟨j, by omega, hja, hv⟩
    · rw [h4, hIco, Finset.filter_insert, if_neg (fun hp => hnacck hp.1)]
  case pos =>
    have hacck : accAt S cutoff k := ⟨hk, hacc⟩
    have hc1b : (stepAt S k).cluster1 < N + k := (hB k hk).1
    have hc2b : (stepAt S k).cluster2 < N + k := (hB k hk).2
    have hcc : (stepAt S k).cluster1 ≠ (stepAt S k).cluster2 := hCC k hk
    have hchild1 : isChildOf S k (stepAt S k).cluster1 := ⟨hk, Or.inl rfl⟩
    have hchild2 : isChildOf S k (stepAt S k).cluster2 := ⟨hk, Or.inr rfl⟩
    have hc1nec : (stepAt S k).cluster1 ≠ N + k := by omega
    have hc2nec : (stepAt S k).cluster2 ≠ N + k := by omega
    have hprot1 : ∀ j, j < k → ¬ isChildOf S j (stepAt S k).cluster1 := by
      intro j hj hch
      have := hUniq j k _ hch hchild1
      omega
    have hpend1 : (stepAt S k).cluster1 < N ∨
        ∃ j, j < k ∧ accAt S cutoff j ∧ (stepAt S k).cluster1 = N + j := by
      rcases Nat.lt_or_ge (stepAt S k).cluster1 N with h | h
      · exact Or.inl h
      · refine Or.inr ⟨(stepAt S k).cluster1 - N, by omega, ⟨by omega, ?_⟩, by omega⟩
        exact le_trans (hSort _ k (by omega) hk) hacc
    have hparent : (st.1 (N + k)).isSome ↔ accChild S cutoff (N + k) := by
      rw [h3]
      constructor
      · rintro ⟨j, hkj, hja, hv | hch⟩
        · omega
        · exact ⟨j, hch.1, hja, hch⟩
      · rintro ⟨j, hjlen, hja, hch⟩
        have hlt : N + k < N + j := by
          rcases hch.2 with he | he
          · have := (hB j hjlen).1; omega
          · have := (hB j hjlen).2; omega
        exact ⟨j, by omega, hja, Or.inr hch⟩
    cases hav : st.1 (N + k) with
    | none =>
      rw [cutStep_alloc _ _ _ _ hacc hav]
      have hnoacc : ¬ accChild S cutoff (N + k) := by
        rw [← hparent, hav]
        simp
      have hm' : ∀ v, (updateF (updateF (updateF st.1 (N + k) (some st.2))
          (stepAt S k).cluster1 (some st.2)) (stepAt S k).cluster2
          (some st.2)) v =
          if v = (stepAt S k).cluster2 ∨ v = (stepAt S k).cluster1 ∨ v = N + k
          then some st.2 else st.1 v := by
        intro v
        rcases eq_or_ne v (stepAt S k).cluster2 with rfl | hv2
        · rw [updateF_self, if_pos (Or.inl rfl)]
        rcases eq_or_ne v (stepAt S k).cluster1 with rfl | hv1
        · rw [updateF_ne _ _ _ hv2, updateF_self, if_pos (Or.inr (Or.inl rfl))]
        rcases eq_or_ne v (N + k) with rfl | hvc
        · rw [updateF_ne _ _ _ hv2, updateF_ne _ _ _ hv1, updateF_self,
            if_pos (Or.inr (Or.inr rfl))]
        · rw [updateF_ne _ _ _ hv2, updateF_ne _ _ _ hv1, updateF_ne _ _ _ hvc,
            if_neg (by tauto)]
      refine ⟨?_, ?_, ?_, ?_⟩ <;> dsimp only
      · intro v g hvg
        rw [hm'] at hvg
        split at hvg
        · cases hvg
          omega
        · have := h1 v g hvg
          omega
      · intro g hg
        by_cases hgng : g = st.2
        · subst hgng
          refine ⟨(stepAt S k).cluster1, ?_, hprot1, hpend1⟩
          rw [hm', if_pos (Or.inr (Or.inl rfl))]
        · have hglt : g < st.2 := by omega
          obtain ⟨v, hv, hprot, hpend⟩ := h2 g hglt
          have hvne1 : v ≠ (stepAt S k).cluster1 := by
            intro he
            exact hprot k (by omega) (he ▸ hchild1)
          have hvne2 : v ≠ (stepAt S k).cluster2 := by
            intro he
            exact hprot k (by omega) (he ▸ hchild2)
          have hvnec : v ≠ N + k := by
            intro he
            rw [he, hav] at hv
            exact Option.noConfusion hv
          refine ⟨v, ?_, fun j hj => hprot j (by omega), ?_⟩
          · rw [hm', if_neg (by tauto)]
            exact hv
          · rcases hpend with h | ⟨j, hj, hja, hjv⟩
            · exact Or.inl h
            · have hjne : j ≠ k := by
                intro he
                subst he
                exact hvnec hjv
              exact Or.inr ⟨j, by omega, hja, hjv⟩
      · intro v
        rw [hm']
        constructor
        · intro hsome
          split at hsome
          · rename_i hcond
            rcases hcond with rfl | rfl | rfl
            · exact ⟨k, le_refl _, hacck, Or.inr hchild2⟩
            · exact ⟨k, le_refl _, hacck, Or.inr hchild1⟩
            · exact ⟨k, le_refl _, hacck, Or.inl rfl⟩
          · obtain ⟨j, hkj, hja, hv⟩ := (h3 v).mp hsome
            exact ⟨j, by omega, hja, hv⟩
        · rintro ⟨j, hkj, hja, hv⟩
          split
          · simp
          · rename_i hcond
            rcases Nat.eq_or_lt_of_le hkj with rfl | hjk
            · exfalso
              rcases hv with hv | hch
              · exact hcond (Or.inr (Or.inr hv))
              · rcases hch.2 with he | he
                · exact hcond (Or.inr (Or.inl he))
                · exact hcond (Or.inl he)
            · exact (h3 v).mpr ⟨j, by omega, hja, hv⟩
      · rw [hIco, Finset.filter_insert, if_pos ⟨hacck, hnoacc⟩,
          Finset.card_insert_of_not_mem
            (fun hmem => hknot (Finset.mem_of_mem_filter _ hmem)), h4]
    | some w =>
      rw [cutStep_noalloc _ _ _ _ w hacc hav]
      have hw : w < st.2 := h1 _ _ hav
      have hasme : (st.1 (N + k)).isSome := by
        rw [hav]; rfl
      have hisacc : accChild S cutoff (N + k) := hparent.mp hasme
      have hm' : ∀ v, (updateF (updateF st.1
          (stepAt S k).cluster1 (some w)) (stepAt S k).cluster2 (some w)) v =
          if v = (stepAt S k).cluster2 ∨ v = (stepAt S k).cluster1
          then some w else st.1 v := by
        intro v
        rcases eq_or_ne v (stepAt S k).cluster2 with rfl | hv2
        · rw [updateF_self, if_pos (Or.inl rfl)]
        rcases eq_or_ne v (stepAt S k).cluster1 with rfl | hv1
        · rw [updateF_ne _ _ _ hv2, updateF_self, if_pos (Or.inr rfl)]
        · rw [updateF_ne _ _ _ hv2, updateF_ne _ _ _ hv1, if_neg (by tauto)]
      refine ⟨?_, ?_, ?_, ?_⟩ <;> dsimp only
      · intro v g hvg
        rw [hm'] at hvg
        split at hvg
        · cases hvg
          omega
        · exact h1 v g hvg
      · intro g hg
        by_cases hgw : g = w
        · subst hgw
          refine ⟨(stepAt S k).cluster1, ?_, hprot1, hpend1⟩
          rw [hm', if_pos (Or.inr rfl)]
        · obtain ⟨v, hv, hprot, hpend⟩ := h2 g hg
          have hvne1 : v ≠ (stepAt S k).cluster1 := by
            intro he
            exact hprot k (by omega) (he ▸ hchild1)
          have hvne2 : v ≠ (stepAt S k).cluster2 := by
            intro he
            exact hprot k (by omega) (he ▸ hchild2)
          have hvnec : v ≠ N + k := by
            intro he
            rw [he, hav] at hv
            cases hv
            exact hgw rfl
          refine ⟨v, ?_, fun j hj => hprot j (by omega), ?_⟩
          · rw [hm', if_neg (by tauto)]
            exact hv
          · rcases hpend with h | ⟨j, hj, hja, hjv⟩
            · exact Or.inl h
            · have hjne : j ≠ k := by
                intro he
                subst he
                exact hvnec hjv
              exact Or.inr ⟨j, by omega, hja, hjv⟩
      · intro v
        rw [hm']
        constructor
        · intro hsome
          split at hsome
          · rename_i hcond
            rcases hcond with rfl | rfl
            · exact ⟨k, le_refl _, hacck, Or.inr hchild2⟩
            · exact ⟨k, le_refl _, hacck, Or.inr hchild1⟩
          · obtain ⟨j, hkj, hja, hv⟩ := (h3 v).mp hsome
            exact ⟨j, by omega, hja, hv⟩
        · rintro ⟨j, hkj, hja, hv⟩
          split
          · simp
          · rename_i hcond
            rcases Nat.eq_or_lt_of_le hkj with rfl | hjk
            · rcases hv with hv | hch
              · subst hv
                exact hasme
              · exfalso
                rcases hch.2 with he | he
                · exact hcond (Or.inr he)
                · exact hcond (Or.inl he)
            · exact (h3 v).mpr ⟨j, by omega, hja, hv⟩
      · rw [hIco, Finset.filter_insert,
          if_neg (fun hp => hp.2 hisacc), h4]

theorem runSteps_inv (S : List Step) (cutoff : ℚ) (N : ℕ)
    (hB : ∀ j, j < S.length →
      (stepAt S j).cluster1 < N + j ∧ (stepAt S j).cluster2 < N + j)
    (hUniq : ∀ j1 j2 v, isChildOf S j1 v → isChildOf S j2 v → j1 = j2)
    (hCC : ∀ j, j < S.length →
      (stepAt S j).cluster1 ≠ (stepAt S j).cluster2)
    (hSort : ∀ i j, i ≤ j → j < S.length →
      (stepAt S i).dissimilarity ≤ (stepAt S j).dissimilarity) :
    ∀ (l : List Step) (k : ℕ), S.drop k = l →
      StateInv S cutoff N k
        (List.foldr (cutStep N cutoff) (fun _ => none, 0) (List.enumFrom k l)) := by
  intro l
  induction l with
  | nil =>
    intro k hdrop
    have hlen : S.length ≤ k := List.drop_eq_nil_iff.mp hdrop
    simpa using stateInv_init S cutoff N k hlen
  | cons hd tl ih =>
    intro k hdrop
    have hk : k < S.length := by
      by_contra hcon
      rw [List.drop_eq_nil_iff.mpr (by omega)] at hdrop
      exact List.noConfusion hdrop
    have hhd : stepAt S k = hd := by
      have hlt : 0 < (S.drop k).length := by
        rw [hdrop]
        simp
      have h0 : (S.drop k)[0] = hd := by
        simp [hdrop]
      rw [List.getElem_drop] at h0
      rw [stepAt_eq_get S k hk, List.get_eq_getElem]
      simpa using h0
    have htl : S.drop (k + 1) = tl := by
      have h0 := congrArg List.tail hdrop
      rwa [List.tail_drop] at h0
    rw [List.enumFrom_cons, List.foldr_cons]
    have hinner := ih (k + 1) htl
    rw [← hhd]
    exact stateInv_step S cutoff N k hB hUniq hCC hSort hk _ hinner

theorem runSteps_final (d : Dendrogram) (cutoff : ℚ) (hwf : WF d) :
    StateInv d.steps cutoff d.observations 0
      (runSteps d.observations cutoff d.steps.enum (fun _ => none, 0)) := by
  have h := runSteps_inv d.steps cutoff d.observations (wf_bounds hwf)
    (wf_child_unique hwf) (wf_child_ne hwf) (wf_sorted hwf) d.steps 0 (by simp)
  rw [runSteps, List.enum_eq_enumFrom]
  exact h

theorem assignLeaves_length :
    ∀ (L : List (Option ℕ)) (ng : ℕ), (assignLeaves L ng).length = L.length := by
  intro L
  induction L with
  | nil => intro ng; simp [assignLeaves]
  | cons hd tl ih =>
    intro ng
    cases hd <;> simp [assignLeaves, ih]

theorem assignLeaves_toFinset :
    ∀ (L : List (Option ℕ)) (ng : ℕ),
      (assignLeaves L ng).toFinset =
        (L.filterMap id).toFinset ∪ Finset.Ico ng (ng + L.count none) := by
  intro L
  induction L with
  | nil =>
    intro ng
    simp [assignLeaves]
  | cons hd tl ih =>
    intro ng
    cases hd with
    | some g =>
      have hc : (some g :: tl).count (α := Option ℕ) none = tl.count none := by
        simp [List.count_cons]
      have hf : ((some g :: tl).filterMap id) = g :: tl.filterMap id := by
        simp [List.filterMap_cons]
      rw [assignLeaves, hc, hf]
      simp only [List.toFinset_cons]
      rw [ih ng, Finset.insert_union]
    | none =>
      have hc : (none :: tl).count (α := Option ℕ) none = tl.count none + 1 := by
        simp [List.count_cons]
      have hf : ((none :: tl).filterMap id) = tl.filterMap id := by
        simp [List.filterMap_cons]
      rw [assignLeaves, hc, hf]
      simp only [List.toFinset_cons]
      rw [ih (ng + 1)]
      ext x
      simp only [Finset.mem_insert, Finset.mem_union, Finset.mem_Ico]
      constructor
      · rintro (rfl | hx | ⟨h1, h2⟩)
        · exact Or.inr ⟨le_refl _, by omega⟩
        · exact Or.inl hx
        · exact Or.inr ⟨by omega, by omega⟩
      · rintro (hx | ⟨h1, h2⟩)
        · exact Or.inr (Or.inl hx)
        · rcases Nat.eq_or_lt_of_le h1 with rfl | hlt
          · exact Or.inl rfl
          · exact Or.inr (Or.inr ⟨by omega, by omega⟩)

theorem filterMap_id_length_add_count (L : List (Option ℕ)) :
    (L.filterMap id).length + L.count none = L.length := by
  induction L with
  | nil => simp
  | cons hd tl ih =>
    cases hd with
    | some g =>
      have hc : (some g :: tl).count (α := Option ℕ) none = tl.count none := by
        simp [List.count_cons]
      have hf : ((some g :: tl).filterMap id) = g :: tl.filterMap id := by
        simp [List.filterMap_cons]
      rw [hc, hf]
      simp only [List.length_cons]
      omega
    | none =>
      have hc : (none :: tl).count (α := Option ℕ) none = tl.count none + 1 := by
        simp [List.count_cons]
      have hf : ((none :: tl).filterMap id) = tl.filterMap id := by
        simp [List.filterMap_cons]
      rw [hc, hf]
      simp only [List.length_cons]
      omega

theorem assignLeaves_count :
    ∀ (L : List (Option ℕ)) (ng g : ℕ),
      (∀ v g', v ∈ L → v = some g' → g' < ng) → ng ≤ g →
      (assignLeaves L ng).count g =
        if g < ng + L.count none then 1 else 0 := by
  intro L
  induction L with
  | nil =>
    intro ng g _ hg
    rw [assignLeaves]
    simp only [List.count_nil]
    split <;> omega
  | cons hd tl ih =>
    intro ng g hv hg
    cases hd with
    | some w =>
      have hw : w < ng := hv (some w) w (by simp) rfl
      have hc : (some w :: tl).count (α := Option ℕ) none = tl.count none := by
        simp [List.count_cons]
      rw [assignLeaves, hc]
      rw [List.count_cons]
      have hne : (w == g) = false := by
        simp only [beq_eq_false_iff_ne, ne_eq]
        omega
      rw [hne]
      simp only [Bool.false_eq_true, if_false, Nat.add_zero]
      exact ih ng g (fun v g' hm he => hv v g' (by simp [hm]) he) hg
    | none =>
      have hc : (none :: tl).count (α := Option ℕ) none = tl.count none + 1 := by
        simp [List.count_cons]
      rw [assignLeaves, hc]
      rw [List.count_cons]
      by_cases hgn : g = ng
      · subst hgn
        have hnm : g ∉ assignLeaves tl (g + 1) := by
          intro hmem
          rw [← List.mem_toFinset, assignLeaves_toFinset] at hmem
          rcases Finset.mem_union.mp hmem with hmem | hmem
          · rw [List.mem_toFinset, List.mem_filterMap] at hmem
            obtain ⟨v, hvm, hvid⟩ := hmem
            have := hv v g (by simp [hvm]) (by cases v <;> simp_all)
            omega
          · rw [Finset.mem_Ico] at hmem
            omega
        rw [List.count_eq_zero_of_not_mem hnm,
          if_pos (show (g == g) = true by simp),
          if_pos (show g < g + (tl.count none + 1) by omega)]
      · have hbeq : (ng == g) = false := by
          simp only [beq_eq_false_iff_ne, ne_eq]
          exact fun he => hgn he.symm
        rw [hbeq]
        simp only [Bool.false_eq_true, if_false, Nat.add_zero]
        have hg1 : ng + 1 ≤ g := by omega
        rw [ih (ng + 1) g
          (fun v g' hm he => lt_trans (hv v g' (by simp [hm]) he) (by omega)) hg1]
        by_cases hlt : g < ng + 1 + tl.count none
        · rw [if_pos hlt, if_pos (show g < ng + (tl.count none + 1) by omega)]
        · rw [if_neg hlt,
            if_neg (show ¬ g < ng + (tl.count none + 1) by omega)]

theorem cut_some (d : Dendrogram) (t : ℚ) (hN : d.observations ≠ 0) :
    cut_dendrogram d t = some (assignLeaves
      ((List.range d.observations).map
        (runSteps d.observations (qsub 1 t) d.steps.enum (fun _ => none, 0)).1)
      (runSteps d.observations (qsub 1 t) d.steps.enum (fun _ => none, 0)).2) := by
  rw [cut_dendrogram, if_neg hN]

theorem cut_partition (d : Dendrogram) (t : ℚ) (hwf : WF d) (l : List ℕ)
    (hcut : cut_dendrogram d t = some l) :
    l.length = d.observations ∧
    ∃ G, G ≤ d.observations ∧ l.toFinset = Finset.range G := by
  have hN : d.observations ≠ 0 := by
    have := hwf.1
    omega
  rw [cut_some d t hN] at hcut
  have hl := (Option.some.inj hcut).symm
  subst hl
  obtain ⟨h1, h2, h3, h4⟩ := runSteps_final d (qsub 1 t) hwf
  constructor
  · rw [assignLeaves_length]
    simp
  · set st := runSteps d.observations (qsub 1 t) d.steps.enum (fun _ => none, 0)
      with hst
    set L := (List.range d.observations).map st.1 with hL
    have hFM : (L.filterMap id).toFinset = Finset.range st.2 := by
      ext g
      rw [List.mem_toFinset, List.mem_filterMap, Finset.mem_range]
      constructor
      · rintro ⟨v, hvm, hvid⟩
        rw [hL, List.mem_map] at hvm
        obtain ⟨i, _, hi⟩ := hvm
        have hv : v = some g := by
          cases v with
          | none => exact Option.noConfusion hvid
          | some x => simpa using hvid
        rw [hv] at hi
        exact h1 i g hi
      · intro hg
        obtain ⟨v, hv, hprot, hpend⟩ := h2 g hg
        have hvN : v < d.observations := by
          rcases hpend with h | ⟨j, hj, _, _⟩
          · exact h
          · omega
        refine ⟨some g, ?_, rfl⟩
        rw [hL, List.mem_map]
        exact ⟨v, by simpa [List.mem_range] using hvN, hv⟩
    rw [assignLeaves_toFinset, hFM]
    refine ⟨st.2 + L.count none, ?_, ?_⟩
    · have h1le : st.2 ≤ (L.filterMap id).length := by
        calc st.2 = (L.filterMap id).toFinset.card := by
              rw [hFM, Finset.card_range]
          _ ≤ (L.filterMap id).length := List.toFinset_card_le _
      have hsum := filterMap_id_length_add_count L
      have hLlen : L.length = d.observations := by
        simp [hL]
      omega
    · ext x
      simp only [Finset.mem_union, Finset.mem_range, Finset.mem_Ico]
      omega

theorem cut_fresh_count (d : Dendrogram) (t : ℚ) (hwf : WF d) (l : List ℕ)
    (hcut : cut_dendrogram d t = some l) :
    ∀ g, g ∈ l →
      (runSteps d.observations (qsub 1 t) d.steps.enum (fun _ => none, 0)).2 ≤ g →
      l.count g = 1 := by
  have hN : d.observations ≠ 0 := by
    have := hwf.1
    omega
  rw [cut_some d t hN] at hcut
  have hl := (Option.some.inj hcut).symm
  subst hl
  obtain ⟨h1, h2, h3, h4⟩ := runSteps_final d (qsub 1 t) hwf
  set st := runSteps d.observations (qsub 1 t) d.steps.enum (fun _ => none, 0)
    with hst
  set L := (List.range d.observations).map st.1 with hL
  intro g hgmem hgge
  have hLv : ∀ v g', v ∈ L → v = some g' → g' < st.2 := by
    intro v g' hm he
    subst he
    rw [hL, List.mem_map] at hm
    obtain ⟨i, _, hi⟩ := hm
    exact h1 i g' hi
  rw [assignLeaves_count L st.2 g hLv hgge]
  rw [← List.mem_toFinset, assignLeaves_toFinset] at hgmem
  rcases Finset.mem_union.mp hgmem with hmem | hmem
  · rw [List.mem_toFinset, List.mem_filterMap] at hmem
    obtain ⟨v, hvm, hvid⟩ := hmem
    have hv : v = some g := by
      cases v with
      | none => exact Option.noConfusion hvid
      | some x => simpa using hvid
    have := hLv v g hvm hv
    omega
  · rw [Finset.mem_Ico] at hmem
    rw [if_pos hmem.2]

theorem countP_sorted_get (S : List Step) (c : ℚ)
    (hp : S.Pairwise fun a b => a.dissimilarity ≤ b.dissimilarity) :
    ∀ j (hj : j < S.length),
      ((S.get ⟨j, hj⟩).dissimilarity ≤ c ↔
        j < S.countP (fun s => decide (s.dissimilarity ≤ c))) := by
  induction S with
  | nil =>
    intro j hj
    simp at hj
  | cons a tl ih =>
    intro j hj
    rw [List.countP_cons]
    have hhead : ∀ x ∈ tl, a.dissimilarity ≤ x.dissimilarity :=
      fun x hx => (List.pairwise_cons.mp hp).1 x hx
    have htlp := (List.pairwise_cons.mp hp).2
    cases j with
    | zero =>
      have hget : (a :: tl).get ⟨0, hj⟩ = a := rfl
      rw [hget]
      constructor
      · intro h
        rw [if_pos (by simpa using h)]
        omega
      · intro h
        by_contra hcon
        rw [if_neg (by simpa using hcon)] at h
        have hz : tl.countP (fun s => decide (s.dissimilarity ≤ c)) = 0 := by
          rw [List.countP_eq_zero]
          intro x hx hxc
          exact hcon (le_trans (hhead x hx) (by simpa using hxc))
        omega
    | succ j =>
      have hj2 : j < tl.length := by simpa using hj
      have hih := ih htlp j hj2
      have hget : (a :: tl).get ⟨j + 1, hj⟩ = tl.get ⟨j, hj2⟩ := rfl
      rw [hget]
      by_cases hpa : a.dissimilarity ≤ c
      · rw [if_pos (by simpa using hpa)]
        rw [hih]
        omega
      · rw [if_neg (by simpa using hpa)]
        have hz : tl.countP (fun s => decide (s.dissimilarity ≤ c)) = 0 := by
          rw [List.countP_eq_zero]
          intro x hx hxc
          exact hpa (le_trans (hhead x hx) (by simpa using hxc))
        constructor
        · intro h
          exact absurd (le_trans (hhead _ (List.get_mem tl j hj2)) h) hpa
        · intro h
          omega

theorem accAt_iff (d : Dendrogram) (c : ℚ) (hwf : WF d) (j : ℕ)
    (hj : j < d.steps.length) :
    accAt d.steps c j ↔
      j < d.steps.countP (fun s => decide (s.dissimilarity ≤ c)) := by
  constructor
  · rintro ⟨_, h⟩
    rw [stepAt_eq_get _ _ hj] at h
    exact (countP_sorted_get d.steps c hwf.2.2.2 j hj).mp h
  · intro h
    refine ⟨hj, ?_⟩
    rw [stepAt_eq_get _ _ hj]
    exact (countP_sorted_get d.steps c hwf.2.2.2 j hj).mpr h

theorem countP_range_card (N : ℕ) (p : ℕ → Prop) [DecidablePred p] :
    ((Finset.range N).filter p).card =
      (List.range N).countP (fun v => decide (p v)) := by
  induction N with
  | zero => simp
  | succ n ih =>
    rw [Finset.range_succ, List.range_succ, List.countP_append,
      Finset.filter_insert]
    by_cases hp : p n
    · rw [if_pos hp, Finset.card_insert_of_not_mem (by simp)]
      simp only [List.countP_cons, List.countP_nil]
      rw [ih]
      simp [hp]
    · rw [if_neg hp]
      simp only [List.countP_cons, List.countP_nil]
      rw [ih]
      simp [hp]

theorem cut_toFinset (d : Dendrogram) (t : ℚ) (hwf : WF d) (l : List ℕ)
    (hcut : cut_dendrogram d t = some l) :
    l.toFinset = Finset.range
      ((runSteps d.observations (qsub 1 t) d.steps.enum (fun _ => none, 0)).2 +
        (((List.range d.observations).map
          (runSteps d.observations (qsub 1 t) d.steps.enum
            (fun _ => none, 0)).1).count none)) := by
  have hN : d.observations ≠ 0 := by
    have := hwf.1
    omega
  rw [cut_some d t hN] at hcut
  have hl := (Option.some.inj hcut).symm
  subst hl
  obtain ⟨h1, h2, h3, h4⟩ := runSteps_final d (qsub 1 t) hwf
  set st := runSteps d.observations (qsub 1 t) d.steps.enum (fun _ => none, 0)
    with hst
  set L := (List.range d.observations).map st.1 with hL
  have hFM : (L.filterMap id).toFinset = Finset.range st.2 := by
    ext g
    rw [List.mem_toFinset, List.mem_filterMap, Finset.mem_range]
    constructor
    · rintro ⟨v, hvm, hvid⟩
      rw [hL, List.mem_map] at hvm
      obtain ⟨i, _, hi⟩ := hvm
      have hv : v = some g := by
        cases v with
        | none => exact Option.noConfusion hvid
        | some x => simpa using hvid
      rw [hv] at hi
      exact h1 i g hi
    · intro hg
      obtain ⟨v, hv, hprot, hpend⟩ := h2 g hg
      have hvN : v < d.observations := by
        rcases hpend with h | ⟨j, hj, _, _⟩
        · exact h
        · omega
      refine ⟨some g, ?_, rfl⟩
      rw [hL, List.mem_map]
      exact ⟨v, by simpa [List.mem_range] using hvN, hv⟩
  rw [assignLeaves_toFinset, hFM]
  ext x
  simp only [Finset.mem_union, Finset.mem_range, Finset.mem_Ico]
  omega

theorem cut_card (d : Dendrogram) (t : ℚ) (hwf : WF d) (l : List ℕ)
    (hcut : cut_dendrogram d t = some l) :
    l.toFinset.card = d.observations -
      d.steps.countP (fun s => decide (s.dissimilarity ≤ qsub 1 t)) := by
  classical
  obtain ⟨h1, h2, h3, h4⟩ := runSteps_final d (qsub 1 t) hwf
  set c := qsub 1 t with hc
  set S := d.steps with hS
  set N := d.observations with hN
  set m := S.countP (fun s => decide (s.dissimilarity ≤ c)) with hm
  have hmlen : m ≤ S.length := List.countP_le_length _
  have hlenN : S.length + 1 = N := hwf.1
  set st := runSteps N c S.enum (fun _ => none, 0) with hst
  rw [cut_toFinset d t hwf l hcut, Finset.card_range]
  have hIco0 : Finset.Ico 0 S.length = Finset.range S.length := by
    rw [Nat.Ico_zero_eq_range]
  have hA : st.2 = ((Finset.range m).filter
      (fun j => ¬ accChild S c (N + j))).card := by
    rw [h4, hIco0]
    congr 1
    ext j
    simp only [Finset.mem_filter, Finset.mem_range]
    constructor
    · rintro ⟨hjlen, hacc, hnc⟩
      exact ⟨(accAt_iff d c hwf j hjlen).mp hacc, hnc⟩
    · rintro ⟨hjm, hnc⟩
      have hjlen : j < S.length := lt_of_lt_of_le hjm hmlen
      exact ⟨hjlen, (accAt_iff d c hwf j hjlen).mpr hjm, hnc⟩
  have hleaf : ∀ v, v < N → (st.1 v = none ↔ ¬ accChild S c v) := by
    intro v hvN
    rw [← Option.not_isSome_iff_eq_none, h3 v]
    constructor
    · intro hne hac
      obtain ⟨j, hjlen, hja, hch⟩ := hac
      exact hne ⟨j, Nat.zero_le j, hja, Or.inr hch⟩
    · rintro hnac ⟨j, _, hja, hv | hch⟩
      · omega
      · exact hnac ⟨j, hch.1, hja, hch⟩
  have hcount : (((List.range N).map st.1).count none) =
      ((Finset.range N).filter (fun v => ¬ accChild S c v)).card := by
    have e1 : (((List.range N).map st.1).count none)
        = (List.range N).countP (fun v => decide (st.1 v = none)) := by
      show ((List.range N).map st.1).countP (fun x => x == none) = _
      rw [List.countP_map]
      apply List.countP_congr
      intro a _
      show (st.1 a == none) = true ↔ decide (st.1 a = none) = true
      cases h : st.1 a <;> simp
    rw [e1, ← countP_range_card N (fun v => st.1 v = none)]
    congr 1
    apply Finset.filter_congr
    intro v hv
    exact hleaf v (Finset.mem_range.mp hv)
  set CF := ((S.take m).flatMap fun s => [s.cluster1, s.cluster2]).toFinset
    with hCF
  have hCFmem : ∀ v, v ∈ CF ↔ ∃ j, j < m ∧
      (v = (stepAt S j).cluster1 ∨ v = (stepAt S j).cluster2) := by
    intro v
    rw [hCF, List.mem_toFinset, List.mem_flatMap]
    constructor
    · rintro ⟨x, hsm, hv⟩
      rw [List.mem_take_iff_getElem] at hsm
      obtain ⟨j, hj, hjs⟩ := hsm
      have hjm : j < m := lt_of_lt_of_le hj (min_le_left _ _)
      have hjlen : j < S.length := lt_of_lt_of_le hj (min_le_right _ _)
      refine ⟨j, hjm, ?_⟩
      rw [stepAt_eq_get _ _ hjlen, List.get_eq_getElem, hjs]
      simpa using hv
    · rintro ⟨j, hjm, hv⟩
      have hjlen : j < S.length := lt_of_lt_of_le hjm hmlen
      refine ⟨stepAt S j, ?_, by rcases hv with h | h <;> simp [h]⟩
      rw [List.mem_take_iff_getElem]
      refine ⟨j, lt_min hjm hjlen, ?_⟩
      rw [stepAt_eq_get _ _ hjlen, List.get_eq_getElem]
  have haccCF : ∀ v, accChild S c v ↔ v ∈ CF := by
    intro v
    rw [hCFmem]
    constructor
    · rintro ⟨j, hjlen, hja, hch⟩
      exact ⟨j, (accAt_iff d c hwf j hjlen).mp hja, hch.2⟩
    · rintro ⟨j, hjm, hv⟩
      have hjlen : j < S.length := lt_of_lt_of_le hjm hmlen
      exact ⟨j, hjlen, (accAt_iff d c hwf j hjlen).mpr hjm, hjlen, hv⟩
  have hCFcard : CF.card = 2 * m := by
    have hfull := hwf.2.2.1
    have hjoin : ((S.take m) ++ (S.drop m)).flatMap
        (fun s => [s.cluster1, s.cluster2]) =
        S.flatMap (fun s => [s.cluster1, s.cluster2]) := by
      rw [List.take_append_drop]
    rw [← hjoin, List.flatMap_append] at hfull
    have hnd := hfull.of_append_left
    rw [hCF, List.toFinset_card_of_nodup hnd, List.length_flatMap]
    rw [show (List.length ∘ fun s : Step => [s.cluster1, s.cluster2])
        = fun _ => 2 from funext fun s => rfl]
    have hsum : (List.map (fun _ : Step => 2) (S.take m)).sum
        = (S.take m).length * 2 := by
      simp [List.map_const]
    rw [hsum, List.length_take, min_eq_left hmlen]
    ring
  set U := Finset.range N ∪ (Finset.range m).image (fun j => N + j) with hU
  have hinj : Function.Injective (fun j : ℕ => N + j) := by
    intro a b h
    simpa using h
  have hdisjU : Disjoint (Finset.range N)
      ((Finset.range m).image (fun j => N + j)) := by
    rw [Finset.disjoint_left]
    intro a ha hb
    rw [Finset.mem_range] at ha
    rw [Finset.mem_image] at hb
    obtain ⟨j, _, hj⟩ := hb
    omega
  have hUcard : U.card = N + m := by
    rw [hU, Finset.card_union_of_disjoint hdisjU, Finset.card_range,
      Finset.card_image_of_injective _ hinj, Finset.card_range]
  have hCFU : CF ⊆ U := by
    intro v hv
    rw [hCFmem] at hv
    obtain ⟨j, hjm, hch⟩ := hv
    have hjlen : j < S.length := lt_of_lt_of_le hjm hmlen
    have hvb : v < N + j := by
      rcases hch with h | h
      · have hb1 := (wf_bounds hwf j hjlen).1
        rw [← hS, ← hN] at hb1
        omega
      · have hb2 := (wf_bounds hwf j hjlen).2
        rw [← hS, ← hN] at hb2
        omega
    rw [hU, Finset.mem_union]
    rcases Nat.lt_or_ge v N with hvN | hvN
    · exact Or.inl (Finset.mem_range.mpr hvN)
    · refine Or.inr ?_
      rw [Finset.mem_image]
      exact ⟨v - N, Finset.mem_range.mpr (by omega), by omega⟩
  have hAimg : ((Finset.range m).filter (fun j => ¬ accChild S c (N + j))).card
      = (((Finset.range m).image (fun j => N + j)).filter
          (fun v => ¬ accChild S c v)).card := by
    rw [← Finset.card_image_of_injective
      ((Finset.range m).filter (fun j => ¬ accChild S c (N + j))) hinj]
    congr 1
    ext v
    simp only [Finset.mem_image, Finset.mem_filter, Finset.mem_range]
    constructor
    · rintro ⟨j, ⟨hjm, hnc⟩, rfl⟩
      exact ⟨⟨j, hjm, rfl⟩, hnc⟩
    · rintro ⟨⟨j, hjm, rfl⟩, hnc⟩
      exact ⟨j, ⟨hjm, hnc⟩, rfl⟩
  have hdisj2 : Disjoint
      ((Finset.range N).filter (fun v => ¬ accChild S c v))
      (((Finset.range m).image (fun j => N + j)).filter
        (fun v => ¬ accChild S c v)) :=
    hdisjU.mono (Finset.filter_subset _ _) (Finset.filter_subset _ _)
  have hUdiff : U.filter (fun v => ¬ accChild S c v) = U \ CF := by
    ext v
    rw [Finset.mem_filter, Finset.mem_sdiff]
    constructor
    · rintro ⟨hvU, hnc⟩
      exact ⟨hvU, fun hin => hnc ((haccCF v).mpr hin)⟩
    · rintro ⟨hvU, hnin⟩
      exact ⟨hvU, fun hac => hnin ((haccCF v).mp hac)⟩
  have hcards : ((Finset.range N).filter (fun v => ¬ accChild S c v)).card
      + (((Finset.range m).image (fun j => N + j)).filter
          (fun v => ¬ accChild S c v)).card
      = (U \ CF).card := by
    rw [← Finset.card_union_of_disjoint hdisj2, ← hUdiff, hU,
      Finset.filter_union]
  have hfinal : (U \ CF).card = N + m - 2 * m := by
    rw [Finset.card_sdiff hCFU, hUcard, hCFcard]
  rw [hA, hcount, hAimg]
  omega

end clust

theorem strLt_iff (a b : String) : strLt a b ↔ a < b := by
  unfold strLt
  rw [List.lt_iff_lex_lt]
  exact Iff.symm String.lt_iff_toList_lt

theorem strLE_refl (a : String) : strLE a a := Or.inr rfl

theorem strLE_trans {a b c : String} (h1 : strLE a b) (h2 : strLE b c) :
    strLE a c := by
  rcases h1 with h1 | rfl
  · rcases h2 with h2 | rfl
    · exact Or.inl ((strLt_iff _ _).mpr
        (lt_trans ((strLt_iff _ _).mp h1) ((strLt_iff _ _).mp h2)))
    · exact Or.inl h1
  · exact h2

theorem strLE_antisymm {a b : String} (h1 : strLE a b) (h2 : strLE b a) :
    a = b := by
  rcases h1 with h1 | rfl
  · rcases h2 with h2 | rfl
    · exact absurd ((strLt_iff _ _).mp h1) (lt_asymm ((strLt_iff _ _).mp h2))
    · rfl
  · rfl

theorem strLE_total (a b : String) : strLE a b ∨ strLE b a := by
  rcases lt_trichotomy a b with h | h | h
  · exact Or.inl (Or.inl ((strLt_iff _ _).mpr h))
  · exact Or.inl (Or.inr h)
  · exact Or.inr (Or.inl ((strLt_iff _ _).mpr h))

namespace dist

theorem rawLE_antisymm_key {a b : RawPair} (h1 : rawLE a b) (h2 : rawLE b a) :
    a.1 = b.1 ∧ a.2.1 = b.2.1 := by
  rcases h1 with h1 | ⟨e1, l1⟩
  · rcases h2 with h2 | ⟨e2, _⟩
    · exact absurd ((strLt_iff _ _).mp h1) (lt_asymm ((strLt_iff _ _).mp h2))
    · rw [e2] at h1
      exact absurd ((strLt_iff _ _).mp h1) (lt_irrefl _)
  · rcases h2 with h2 | ⟨e2, l2⟩
    · rw [e1] at h2
      exact absurd ((strLt_iff _ _).mp h2) (lt_irrefl _)
    · exact ⟨e1, strLE_antisymm l1 l2⟩

theorem rawLE_refl (a : RawPair) : rawLE a a := Or.inr ⟨rfl, strLE_refl _⟩

theorem sorted_perm_eq : ∀ (l1 l2 : List RawPair), l1.Perm l2 →
    l1.Pairwise rawLE → l2.Pairwise rawLE →
    (l1.map keyOf).Nodup → l1 = l2 := by
  intro l1
  induction l1 with
  | nil =>
    intro l2 hp _ _ _
    exact List.Perm.nil_eq hp
  | cons a t1 ih =>
    intro l2 hp hs1 hs2 hnd
    cases l2 with
    | nil =>
      have := hp.length_eq
      simp at this
    | cons b t2 =>
      have hamem : a ∈ b :: t2 := hp.mem_iff.mp (by simp)
      have hbmem : b ∈ a :: t1 := hp.mem_iff.mpr (by simp)
      have hab : rawLE a b := by
        rcases List.mem_cons.mp hbmem with h | hbm
        · rw [h]
          exact rawLE_refl _
        · exact (List.pairwise_cons.mp hs1).1 b hbm
      have hba : rawLE b a := by
        rcases List.mem_cons.mp hamem with h | ham
        · rw [h]
          exact rawLE_refl _
        · exact (List.pairwise_cons.mp hs2).1 a ham
      have hkey := rawLE_antisymm_key hab hba
      have hb : b = a := by
        rcases List.mem_cons.mp hbmem with h | hbm
        · exact h
        · exfalso
          have h1 : keyOf b ∈ t1.map keyOf := List.mem_map_of_mem _ hbm
          have h2 : keyOf a = keyOf b := by
            unfold keyOf
            rw [hkey.1, hkey.2]
          rw [List.map_cons, List.nodup_cons] at hnd
          exact hnd.1 (h2 ▸ h1)
      subst hb
      have hperm : t1.Perm t2 := hp.cons_inv
      have heq : t1 = t2 := by
        apply ih t2 hperm (List.pairwise_cons.mp hs1).2
          (List.pairwise_cons.mp hs2).2
        rw [List.map_cons, List.nodup_cons] at hnd
        exact hnd.2
      rw [heq]

end dist

/-! ## Association-list lemmas for the `lib.rs` controller -/

theorem lookupA_insertPush (m : Assignment) (k v l : String) :
    lookupA (insertPush m k v) l =
      if l = k then some ((lookupA m l).getD [] ++ [v]) else lookupA m l := by
  induction m with
  | nil =>
    by_cases h : l = k
    · subst h
      simp [insertPush, lookupA]
    · simp [insertPush, lookupA, h, Ne.symm h]
  | cons kv rest ih =>
    obtain ⟨k', vs⟩ := kv
    by_cases hk : k' = k
    · subst hk
      rw [insertPush, if_pos rfl]
      by_cases hl : l = k'
      · subst hl
        simp [lookupA]
      · simp [lookupA, hl, Ne.symm hl]
    · rw [insertPush, if_neg hk]
      by_cases hl : l = k'
      · subst hl
        rw [if_neg hk]
        simp [lookupA]
      · simp only [lookupA, if_neg (Ne.symm hl)]
        exact ih

theorem lookupA_assign_foldl :
    ∀ (zl : List (String × String)) (m : Assignment) (l : String),
      lookupA (zl.foldl (fun m x => insertPush m x.2 x.1) m) l =
        if l ∈ zl.map Prod.snd ∨ (lookupA m l).isSome then
          some ((lookupA m l).getD [] ++
            ((zl.filter (fun p => p.2 = l)).map Prod.fst))
        else none := by
  intro zl
  induction zl with
  | nil =>
    intro m l
    rw [List.foldl_nil]
    cases h : lookupA m l with
    | none => simp [h]
    | some vs => simp [h]
  | cons p zl ih =>
    intro m l
    rw [List.foldl_cons, ih (insertPush m p.2 p.1) l, lookupA_insertPush]
    by_cases hl : l = p.2
    · subst hl
      rw [if_pos rfl]
      rw [if_pos (Or.inr (by simp))]
      rw [if_pos (by simp)]
      have hfil : ((p :: zl).filter (fun q => q.2 = p.2)) =
          p :: zl.filter (fun q => q.2 = p.2) := by
        rw [List.filter_cons, if_pos (by simp)]
      rw [hfil]
      simp [List.append_assoc]
    · rw [if_neg hl]
      have hfil : ((p :: zl).filter (fun q => q.2 = l)) =
          zl.filter (fun q => q.2 = l) := by
        rw [List.filter_cons, if_neg (by simp [Ne.symm hl])]
      rw [hfil]
      have hmem : (l ∈ (p :: zl).map Prod.snd) ↔ (l ∈ zl.map Prod.snd) := by
        simp [hl]
      by_cases hc : l ∈ zl.map Prod.snd ∨ (lookupA m l).isSome
      · rw [if_pos hc, if_pos (by rw [hmem]; exact hc)]
      · rw [if_neg hc, if_neg (by rw [hmem]; exact hc)]

theorem lookupA_assign_seqs (s c : List String) (l : String) :
    lookupA (assign_seqs s c) l =
      if l ∈ (s.zip c).map Prod.snd then
        some (((s.zip c).filter (fun p => p.2 = l)).map Prod.fst)
      else none := by
  rw [assign_seqs, lookupA_assign_foldl]
  rw [show (lookupA ([] : Assignment) l) = none from rfl]
  exact if_congr (by simp) rfl rfl

theorem insertPush_keys (m : Assignment) (k v : String) :
    keysOf (insertPush m k v) =
      if k ∈ keysOf m then keysOf m else keysOf m ++ [k] := by
  induction m with
  | nil => simp [insertPush, keysOf]
  | cons kv rest ih =>
    obtain ⟨k', vs⟩ := kv
    simp only [keysOf, List.map_cons] at ih ⊢
    by_cases hk : k' = k
    · subst hk
      rw [insertPush, if_pos rfl, List.map_cons, if_pos (by simp)]
    · rw [insertPush, if_neg hk, List.map_cons, ih]
      have hmem : (k ∈ k' :: List.map Prod.fst rest) ↔
          (k ∈ List.map Prod.fst rest) := by
        simp [Ne.symm hk]
      by_cases hin : k ∈ List.map Prod.fst rest
      · rw [if_pos hin, if_pos (hmem.mpr hin)]
      · rw [if_neg hin, if_neg (fun hc => hin (hmem.mp hc))]
        simp

theorem assign_foldl_keys_nodup :
    ∀ (zl : List (String × String)) (m : Assignment),
      (keysOf m).Nodup →
      (keysOf (zl.foldl (fun m x => insertPush m x.2 x.1) m)).Nodup := by
  intro zl
  induction zl with
  | nil =>
    intro m h
    exact h
  | cons p zl ih =>
    intro m h
    rw [List.foldl_cons]
    apply ih
    rw [insertPush_keys]
    by_cases hin : p.2 ∈ keysOf m
    · rw [if_pos hin]
      exact h
    · rw [if_neg hin]
      rw [List.nodup_append]
      exact ⟨h, List.nodup_singleton _, by simpa using hin⟩

theorem assign_seqs_keys_nodup (s c : List String) :
    (keysOf (assign_seqs s c)).Nodup := by
  rw [assign_seqs]
  exact assign_foldl_keys_nodup _ [] (by simp [keysOf])

theorem lookupA_mem_iff (m : Assignment) (hnd : (keysOf m).Nodup)
    (l : String) (vs : List String) :
    (l, vs) ∈ m ↔ lookupA m l = some vs := by
  induction m with
  | nil => simp [lookupA]
  | cons kv rest ih =>
    obtain ⟨k', vs'⟩ := kv
    have hnd2 : (keysOf rest).Nodup := by
      simp only [keysOf, List.map_cons, List.nodup_cons] at hnd
      exact hnd.2
    have hknotin : k' ∉ keysOf rest := by
      simp only [keysOf, List.map_cons, List.nodup_cons] at hnd
      exact hnd.1
    by_cases hl : l = k'
    · subst hl
      rw [lookupA, if_pos rfl]
      simp only [List.mem_cons]
      constructor
      · rintro (he | hm)
        · rw [Prod.mk.injEq] at he
          rw [he.2]
        · exfalso
          apply hknotin
          rw [keysOf, List.mem_map]
          exact ⟨(l, vs), hm, rfl⟩
      · intro he
        cases he
        exact Or.inl rfl
    · rw [lookupA, if_neg (Ne.symm hl)]
      rw [← ih hnd2]
      simp only [List.mem_cons]
      constructor
      · rintro (he | hm)
        · rw [Prod.mk.injEq] at he
          exact absurd he.1 hl
        · exact hm
      · intro hm
        exact Or.inr hm

theorem valuesFlat_insertPush (m : Assignment) (k v : String) :
    (valuesFlat (insertPush m k v)).Perm (v :: valuesFlat m) := by
  induction m with
  | nil =>
    simp [insertPush, valuesFlat]
  | cons kv rest ih =>
    obtain ⟨k', vs⟩ := kv
    by_cases hk : k' = k
    · subst hk
      rw [insertPush, if_pos rfl]
      show ((vs ++ [v]) ++ valuesFlat rest).Perm (v :: (vs ++ valuesFlat rest))
      rw [List.append_assoc]
      exact List.perm_middle.trans (by rfl)
    · rw [insertPush, if_neg hk]
      show (vs ++ valuesFlat (insertPush rest k v)).Perm
        (v :: (vs ++ valuesFlat rest))
      exact (ih.append_left vs).trans List.perm_middle

theorem valuesFlat_assign_foldl :
    ∀ (zl : List (String × String)) (m : Assignment),
      (valuesFlat (zl.foldl (fun m x => insertPush m x.2 x.1) m)).Perm
        (zl.map Prod.fst ++ valuesFlat m) := by
  intro zl
  induction zl with
  | nil =>
    intro m
    simp
  | cons p zl ih =>
    intro m
    rw [List.foldl_cons]
    refine (ih (insertPush m p.2 p.1)).trans ?_
    refine ((valuesFlat_insertPush m p.2 p.1).append_left _).trans ?_
    rw [List.map_cons]
    exact List.perm_middle

theorem assign_seqs_values (s c : List String) (h : s.length ≤ c.length) :
    (valuesFlat (assign_seqs s c)).Perm s := by
  rw [assign_seqs]
  refine (valuesFlat_assign_foldl (s.zip c) []).trans ?_
  rw [List.map_fst_zip s c h]
  simp [valuesFlat]

theorem labelsFlat_length (m : Assignment) :
    (labelsFlat m).length = (valuesFlat m).length := by
  induction m with
  | nil => rfl
  | cons kv rest ih =>
    show (List.replicate kv.2.length kv.1 ++ labelsFlat rest).length
      = (kv.2 ++ valuesFlat rest).length
    simp [ih]

theorem relabel_length (mp : List (String × ℕ)) (pre : String) :
    ∀ (old new : List String), relabel mp pre old = some new →
      new.length = old.length := by
  intro old
  induction old with
  | nil =>
    intro new h
    rw [relabel] at h
    cases h
    rfl
  | cons x xs ih =>
    intro new h
    rw [relabel] at h
    cases hx : lookupA mp x with
    | none => rw [hx] at h; exact Option.noConfusion h
    | some g =>
      rw [hx] at h
      cases hr : relabel mp pre xs with
      | none => rw [hr] at h; exact Option.noConfusion h
      | some rest =>
        rw [hr] at h
        cases h
        simp [ih rest hr]

theorem relabel_none_of_missing (mp : List (String × ℕ)) (pre : String) :
    ∀ (old : List String), (∃ x ∈ old, lookupA mp x = none) →
      relabel mp pre old = none := by
  intro old
  induction old with
  | nil =>
    rintro ⟨x, hx, _⟩
    exact absurd hx (List.not_mem_nil x)
  | cons y ys ih =>
    rintro ⟨x, hx, hlk⟩
    rw [relabel]
    rcases List.mem_cons.mp hx with rfl | hxs
    · rw [hlk]
    · rw [ih ⟨x, hxs, hlk⟩]
      cases lookupA mp y <;> rfl

theorem match_clustering_results_length (fs old : List String) (h : List ℕ)
    (pre : String) (new : List String)
    (hm : match_clustering_results fs old h pre = some new) :
    new.length = old.length := by
  rw [match_clustering_results] at hm
  exact relabel_length _ pre old new hm

theorem dereplicate_iter_values (hclust : List String → List ℕ)
    (prev : Assignment) (pre : String) (a : Assignment)
    (hok : dereplicate_iter hclust prev pre = .ok a) :
    (valuesFlat a).Perm (valuesFlat prev) := by
  rw [dereplicate_iter] at hok
  cases hm : match_clustering_results (uniqueFirst (labelsFlat prev))
      (labelsFlat prev) (hclust (uniqueFirst (labelsFlat prev))) pre with
  | none =>
    rw [hm] at hok
    exact Except.noConfusion hok
  | some new1 =>
    rw [hm] at hok
    cases hok
    have hlen1 : new1.length = (valuesFlat prev).length := by
      rw [match_clustering_results_length _ _ _ _ _ hm, labelsFlat_length]
    apply assign_seqs_values
    rw [List.length_map, List.length_zip, hlen1]
    simp

theorem gatherChunk_values (cc : Assignment) :
    ∀ (ch : List String) (bi : Assignment), gatherChunk cc ch = some bi →
      valuesFlat bi = ch.flatMap (fun y => (lookupA cc y).getD []) := by
  intro ch
  induction ch with
  | nil =>
    intro bi h
    rw [gatherChunk] at h
    cases h
    rfl
  | cons y ys ih =>
    intro bi h
    rw [gatherChunk] at h
    cases hy : lookupA cc y with
    | none => rw [hy] at h; exact Option.noConfusion h
    | some vs =>
      rw [hy] at h
      cases hr : gatherChunk cc ys with
      | none => rw [hr] at h; exact Option.noConfusion h
      | some rest =>
        rw [hr] at h
        cases h
        show vs ++ valuesFlat rest = (lookupA cc y).getD [] ++ _
        rw [ih rest hr, hy]
        rfl

theorem gatherAll_values (cc : Assignment) :
    ∀ (chs : List (List String)) (bis : List Assignment),
      gatherAll cc chs = some bis →
      (bis.map valuesFlat).flatten =
        chs.flatten.flatMap (fun y => (lookupA cc y).getD []) := by
  intro chs
  induction chs with
  | nil =>
    intro bis h
    rw [gatherAll] at h
    cases h
    rfl
  | cons ch chs ih =>
    intro bis h
    rw [gatherAll] at h
    cases hc : gatherChunk cc ch with
    | none => rw [hc] at h; exact Option.noConfusion h
    | some bi =>
      rw [hc] at h
      cases hr : gatherAll cc chs with
      | none => rw [hr] at h; exact Option.noConfusion h
      | some rest =>
        rw [hr] at h
        cases h
        show valuesFlat bi ++ (rest.map valuesFlat).flatten = _
        rw [ih rest hr, gatherChunk_values cc ch bi hc, List.flatten_cons,
          List.flatMap_append]

theorem chunksAux_flatten {α : Type} (n : ℕ) (hn : 1 ≤ n) :
    ∀ (fuel : ℕ) (l : List α), l.length ≤ fuel →
      (chunksAux n fuel l).flatten = l := by
  intro fuel
  induction fuel with
  | zero =>
    intro l hl
    have : l = [] := List.eq_nil_of_length_eq_zero (by omega)
    subst this
    rfl
  | succ f ih =>
    intro l hl
    cases l with
    | nil => rfl
    | cons x xs =>
      have hl2 : xs.length + 1 ≤ f + 1 := by
        simpa using hl
      show ((x :: xs).take n :: chunksAux n f ((x :: xs).drop n)).flatten
        = x :: xs
      rw [List.flatten_cons, ih ((x :: xs).drop n)
        (by simp [List.length_drop]; omega),
        List.take_append_drop]

theorem chunksOf_flatten {α : Type} (n : ℕ) (hn : 1 ≤ n) (l : List α) :
    (chunksOf n l).flatten = l :=
  chunksAux_flatten n hn l.length l (le_refl _)

theorem keys_flatMap_values (cc : Assignment) (hnd : (keysOf cc).Nodup) :
    (keysOf cc).flatMap (fun y => (lookupA cc y).getD []) = valuesFlat cc := by
  induction cc with
  | nil => rfl
  | cons kv rest ih =>
    have hnd2 : (keysOf rest).Nodup := by
      simp only [keysOf, List.map_cons, List.nodup_cons] at hnd
      exact hnd.2
    have hknotin : kv.1 ∉ keysOf rest := by
      simp only [keysOf, List.map_cons, List.nodup_cons] at hnd
      exact hnd.1
    show ((kv.1 :: keysOf rest).flatMap
      (fun y => (lookupA (kv :: rest) y).getD [])) = kv.2 ++ valuesFlat rest
    rw [List.flatMap_cons]
    have hhead : lookupA (kv :: rest) kv.1 = some kv.2 := by
      show (if kv.1 = kv.1 then some kv.2 else lookupA rest kv.1) = some kv.2
      rw [if_pos rfl]
    rw [hhead]
    have hcongr : ∀ y ∈ keysOf rest,
        (lookupA (kv :: rest) y).getD [] = (lookupA rest y).getD [] := by
      intro y hy
      have hne : kv.1 ≠ y := fun he => hknotin (he ▸ hy)
      show ((if kv.1 = y then some kv.2 else lookupA rest y).getD []) = _
      rw [if_neg hne]
    rw [List.flatMap_def, List.map_congr_left hcongr, ← List.flatMap_def,
      ih hnd2]
    rfl

theorem runChunks_values (hclust : List String → List ℕ) (mkPre : ℕ → String) :
    ∀ (bis : List Assignment) (i : ℕ) (ncs : List Assignment),
      runChunks hclust mkPre i bis = .ok ncs →
      ((ncs.map valuesFlat).flatten).Perm ((bis.map valuesFlat).flatten) := by
  intro bis
  induction bis with
  | nil =>
    intro i ncs h
    rw [runChunks] at h
    cases h
    exact List.Perm.refl _
  | cons bi rest ih =>
    intro i ncs h
    rw [runChunks] at h
    cases hd : dereplicate_iter hclust bi (mkPre i) with
    | error e => rw [hd] at h; exact Except.noConfusion h
    | ok a =>
      rw [hd] at h
      cases hr : runChunks hclust mkPre (i + 1) rest with
      | error e => rw [hr] at h; exact Except.noConfusion h
      | ok tl =>
        rw [hr] at h
        cases h
        show (valuesFlat a ++ (tl.map valuesFlat).flatten).Perm
          (valuesFlat bi ++ (rest.map valuesFlat).flatten)
        exact (dereplicate_iter_values hclust bi (mkPre i) a hd).append
          (ih (i + 1) tl hr)

theorem guide_batching_perm (guide : List String → List ℕ)
    (fs : List String) (hlen : (guide fs).length = fs.length) :
    (guide_batching guide fs).Perm fs := by
  rw [guide_batching]
  have h1 := (List.perm_insertionSort guideLE (fs.zip (guide fs))).map Prod.fst
  rwa [List.map_fst_zip fs (guide fs) (le_of_eq hlen.symm)] at h1

theorem batchOrder_perm (guide : List String → List ℕ) (P : PanaaniParams)
    (iter : ℕ) (cc : Assignment)
    (hg : P.guided = true → ∀ fs, (guide fs).length = fs.length)
    (hib : ∀ ib, P.initial_batches = some ib → iter = 0 →
      ib.Perm (keysOf cc)) :
    (batchOrder guide P iter cc).Perm (keysOf cc) := by
  rw [batchOrder]
  by_cases h0 : iter = 0 ∧ P.initial_batches.isSome
  · rw [if_pos h0]
    obtain ⟨hi, hs⟩ := h0
    cases hib2 : P.initial_batches with
    | none =>
      simp [hib2] at hs
    | some ib =>
      simpa using hib ib hib2 hi
  · rw [if_neg h0]
    by_cases hgd : P.guided = true
    · rw [if_pos hgd]
      exact guide_batching_perm guide (keysOf cc) (hg hgd (keysOf cc))
    · rw [if_neg hgd]

theorem roundOf_keys_nodup (hclust guide : List String → List ℕ)
    (salt : ℕ → ℕ → ℕ) (P : PanaaniParams) (iter bs : ℕ)
    (cc cc2 : Assignment)
    (hok : roundOf hclust guide salt P iter bs cc = .ok cc2) :
    (keysOf cc2).Nodup := by
  rw [roundOf] at hok
  cases hg : gatherAll cc (chunksOf bs (batchOrder guide P iter cc)) with
  | none =>
    rw [hg] at hok
    exact Except.noConfusion hok
  | some bis =>
    rw [hg] at hok
    dsimp only at hok
    cases hr : runChunks hclust
        (fun ci => P.temp_dir ++ "/" ++ toString iter ++ "_"
          ++ toString (salt iter ci) ++ "-") 0 bis with
    | error e =>
      rw [hr] at hok
      exact Except.noConfusion hok
    | ok ncs =>
      rw [hr] at hok
      cases hok
      exact assign_seqs_keys_nodup _ _

theorem roundOf_values (hclust guide : List String → List ℕ)
    (salt : ℕ → ℕ → ℕ) (P : PanaaniParams) (iter bs : ℕ)
    (cc cc2 : Assignment) (hnd : (keysOf cc).Nodup)
    (hba : (batchOrder guide P iter cc).Perm (keysOf cc)) (hbs : 1 ≤ bs)
    (hok : roundOf hclust guide salt P iter bs cc = .ok cc2) :
    (valuesFlat cc2).Perm (valuesFlat cc) := by
  rw [roundOf] at hok
  cases hg : gatherAll cc (chunksOf bs (batchOrder guide P iter cc)) with
  | none =>
    rw [hg] at hok
    exact Except.noConfusion hok
  | some bis =>
    rw [hg] at hok
    dsimp only at hok
    cases hr : runChunks hclust
        (fun ci => P.temp_dir ++ "/" ++ toString iter ++ "_"
          ++ toString (salt iter ci) ++ "-") 0 bis with
    | error e =>
      rw [hr] at hok
      exact Except.noConfusion hok
    | ok ncs =>
      rw [hr] at hok
      cases hok
      have hlen : ((ncs.map valuesFlat).flatten).length ≤
          ((ncs.map labelsFlat).flatten).length := by
        rw [List.length_flatten, List.length_flatten, List.map_map,
          List.map_map]
        have he : List.map (List.length ∘ labelsFlat) ncs
            = List.map (List.length ∘ valuesFlat) ncs :=
          List.map_congr_left (fun a _ => labelsFlat_length a)
        rw [he]
      refine (assign_seqs_values _ _ hlen).trans ?_
      refine (runChunks_values hclust _ bis 0 ncs hr).trans ?_
      rw [gatherAll_values cc _ bis hg, chunksOf_flatten bs hbs,
        ← keys_flatMap_values cc hnd, List.flatMap_def, List.flatMap_def]
      exact (hba.map _).flatten

theorem derepLoop_values (hclust guide : List String → List ℕ)
    (salt : ℕ → ℕ → ℕ) (P : PanaaniParams)
    (hg : P.guided = true → ∀ fs, (guide fs).length = fs.length) :
    ∀ (fuel iter bs : ℕ) (cc : Assignment) (res : Assignment × ℕ × ℕ),
      (keysOf cc).Nodup →
      (∀ ib, P.initial_batches = some ib → iter = 0 →
        ib.Perm (keysOf cc)) →
      derepLoop hclust guide salt P fuel iter bs cc = .ok res →
      (valuesFlat res.1).Perm (valuesFlat cc) := by
  intro fuel
  induction fuel with
  | zero =>
    intro iter bs cc res _ _ h
    rw [derepLoop] at h
    cases h
    exact List.Perm.refl _
  | succ f ih =>
    intro iter bs cc res hnd hib h
    rw [derepLoop] at h
    by_cases hguard : cc.length ≤ bs
    · rw [if_pos hguard] at h
      cases h
      exact List.Perm.refl _
    · rw [if_neg hguard] at h
      by_cases hbs : bs = 0
      · rw [if_pos hbs] at h
        exact Except.noConfusion h
      · rw [if_neg hbs] at h
        cases hro : roundOf hclust guide salt P iter bs cc with
        | error e =>
          rw [hro] at h
          exact Except.noConfusion h
        | ok cc2 =>
          rw [hro] at h
          dsimp only at h
          cases hadj : adjustBatch cc2.length
              (growBatch P.batch_step_strategy P.batch_step bs) with
          | error e =>
            rw [hadj] at h
            exact Except.noConfusion h
          | ok bs2 =>
            rw [hadj] at h
            have hba := batchOrder_perm guide P iter cc hg hib
            have hperm := roundOf_values hclust guide salt P iter bs cc cc2
              hnd hba (by omega) hro
            have hnd2 := roundOf_keys_nodup hclust guide salt P iter bs cc
              cc2 hro
            have hrec := ih (iter + 1) bs2 cc2 res hnd2
              (fun ib hib2 hi => absurd hi (by omega)) h
            exact hrec.trans hperm

theorem out_pairs_fst (fin : Assignment) :
    ((fin.map fun kv => kv.2.map fun s2 => (s2, kv.1)).flatten.map
      Prod.fst) = valuesFlat fin := by
  rw [List.map_flatten]
  rw [valuesFlat]
  congr 1
  rw [List.map_map]
  apply List.map_congr_left
  intro kv _
  show (kv.2.map fun s2 => (s2, kv.1)).map Prod.fst = kv.2
  rw [List.map_map]
  exact List.map_id kv.2

theorem dereplicate_cover (hclust guide : List String → List ℕ)
    (salt : ℕ → ℕ → ℕ) (seqs : List String) (ps : PanaaniParams)
    (out : List (String × String))
    (hec : ∀ ec, ps.external_clustering = some ec → seqs.length ≤ ec.length)
    (hib : ∀ ib, ps.initial_batches = some ib →
      ib.Perm (keysOf (assign_seqs seqs (ps.external_clustering.getD seqs))))
    (hg : ps.guided = true → ∀ fs, (guide fs).length = fs.length)
    (hok : dereplicate hclust guide salt seqs (some ps) = .ok out) :
    (out.map Prod.fst).Perm seqs := by
  rw [dereplicate] at hok
  dsimp only [Option.getD_some] at hok
  cases hloop : derepLoop hclust guide salt ps ps.max_iters 0 ps.batch_step
      (assign_seqs seqs (ps.external_clustering.getD seqs)) with
  | error e =>
    rw [hloop] at hok
    exact Except.noConfusion hok
  | ok trip =>
    obtain ⟨ccF, itF, bsF⟩ := trip
    rw [hloop] at hok
    dsimp only at hok
    cases hfin : dereplicate_iter hclust ccF "panANI-" with
    | error e =>
      rw [hfin] at hok
      exact Except.noConfusion hok
    | ok fin =>
      rw [hfin] at hok
      dsimp only at hok
      cases hok
      have h1 : ((((fin.map fun kv => kv.2.map fun s2 =>
          (s2, kv.1)).flatten.insertionSort outPairLE)).map Prod.fst).Perm
          (valuesFlat fin) := by
        rw [← out_pairs_fst fin]
        exact (List.perm_insertionSort outPairLE _).map Prod.fst
      refine h1.trans ?_
      refine (dereplicate_iter_values hclust ccF "panANI-" fin hfin).trans ?_
      have h2 := derepLoop_values hclust guide salt ps hg ps.max_iters 0
        ps.batch_step (assign_seqs seqs (ps.external_clustering.getD seqs))
        (ccF, itF, bsF) (assign_seqs_keys_nodup _ _)
        (fun ib hib2 _ => hib ib hib2) hloop
      refine h2.trans ?_
      apply assign_seqs_values
      cases hev : ps.external_clustering with
      | none => simp
      | some ec =>
        simpa using hec ec hev

theorem zip_map_self (s c : List String) (f : String × String → String) :
    s.zip ((s.zip c).map f) = (s.zip c).map (fun p => (p.1, f p)) := by
  induction s generalizing c with
  | nil => rfl
  | cons x xs ih =>
    cases c with
    | nil => rfl
    | cons y ys =>
      show (x :: xs).zip (f (x, y) :: (xs.zip ys).map f)
        = (x, f (x, y)) :: (xs.zip ys).map (fun p => (p.1, f p))
      rw [List.zip_cons_cons, ih ys]

theorem dereplicate_iter_singleton (hclust : List String → List ℕ)
    (prev : Assignment) (pre : String) (a : Assignment)
    (hok : dereplicate_iter hclust prev pre = .ok a) :
    ∀ l ms, (l, ms) ∈ a → ms.length = 1 → ms = [l] := by
  rw [dereplicate_iter] at hok
  cases hm : match_clustering_results (uniqueFirst (labelsFlat prev))
      (labelsFlat prev) (hclust (uniqueFirst (labelsFlat prev))) pre with
  | none =>
    rw [hm] at hok
    exact Except.noConfusion hok
  | some new1 =>
    rw [hm] at hok
    cases hok
    intro l ms hmem hlen
    set seqf := valuesFlat prev with hseqf
    set a1 := assign_seqs seqf new1 with ha1
    set r : String × String → String := fun p =>
      if ((lookupA a1 p.2).getD []).length = 1 then p.1 else p.2 with hr
    set new2 := (seqf.zip new1).map r with hnew2
    have hmem2 := (lookupA_mem_iff _ (assign_seqs_keys_nodup seqf new2)
      l ms).mp hmem
    rw [lookupA_assign_seqs] at hmem2
    by_cases hin : l ∈ (seqf.zip new2).map Prod.snd
    case neg =>
      rw [if_neg hin] at hmem2
      exact Option.noConfusion hmem2
    case pos =>
      rw [if_pos hin] at hmem2
      have hms := (Option.some.inj hmem2).symm
      have hzip : seqf.zip new2 = (seqf.zip new1).map (fun p => (p.1, r p)) := by
        rw [hnew2]
        exact zip_map_self seqf new1 r
      rw [hzip] at hms
      have hlF : (((seqf.zip new1).map (fun p => (p.1, r p))).filter
          (fun p => p.2 = l)).length = 1 := by
        have := congrArg List.length hms
        rw [List.length_map] at this
        omega
      obtain ⟨q, hq⟩ := List.length_eq_one.mp hlF
      have hqmem : q ∈ ((seqf.zip new1).map (fun p => (p.1, r p))).filter
          (fun p => p.2 = l) := by
        rw [hq]
        exact List.mem_singleton_self q
      have hq2 : q.2 = l := of_decide_eq_true (List.mem_filter.mp hqmem).2
      obtain ⟨p, hp, hpq⟩ := List.mem_map.mp (List.mem_filter.mp hqmem).1
      by_cases hc : ((lookupA a1 p.2).getD []).length = 1
      case pos =>
        have hrp : r p = p.1 := if_pos hc
        have hl2 : l = p.1 := by
          rw [← hq2, ← hpq]
          simp [hrp]
        rw [hms, hq, ← hpq]
        simp [hl2]
      case neg =>
        exfalso
        have hrp : r p = p.2 := if_neg hc
        have hl2 : l = p.2 := by
          rw [← hq2, ← hpq]
          simp [hrp]
        have hlin : l ∈ (seqf.zip new1).map Prod.snd := by
          rw [hl2]
          exact List.mem_map_of_mem Prod.snd hp
        have hlook : lookupA a1 l
            = some (((seqf.zip new1).filter (fun p => p.2 = l)).map Prod.fst) := by
          rw [ha1, lookupA_assign_seqs, if_pos hlin]
        have hKge : 1 ≤ ((seqf.zip new1).filter (fun p => p.2 = l)).length :=
          List.length_pos_of_mem (List.mem_filter.mpr ⟨hp, by simp [hl2]⟩)
        have hKne : ((seqf.zip new1).filter (fun p => p.2 = l)).length ≠ 1 := by
          intro h1
          apply hc
          rw [← hl2, hlook, Option.getD_some, List.length_map]
          exact h1
        have hcl : ¬((lookupA a1 l).getD []).length = 1 := by
          rw [hl2]
          exact hc
        have hmono : ((seqf.zip new1).filter (fun p => p.2 = l)).length ≤
            (((seqf.zip new1).map (fun p => (p.1, r p))).filter
              (fun p => p.2 = l)).length := by
          rw [← List.countP_eq_length_filter, ← List.countP_eq_length_filter,
            List.countP_map]
          refine List.countP_mono_left ?_
          intro x hx hdx
          have hx2 : x.2 = l := of_decide_eq_true hdx
          simp only [Function.comp]
          refine decide_eq_true ?_
          show r x = l
          have hrx : r x = x.2 := by
            refine if_neg ?_
            rw [hx2]
            exact hcl
          rw [hrx, hx2]
        omega

/-! ### Claim theorems -/

/-- C1: for every list of distinct input sequence identifiers, the pairs
returned by `dereplicate` cover the inputs exactly: the first components of
the output are a permutation of the inputs, so each input sequence appears
in exactly one `(sequence, label)` pair, none missing and none duplicated. -/
theorem C1_exact_cover (hclust guide : List String → List ℕ)
    (salt : ℕ → ℕ → ℕ) (seqs : List String) (ps : PanaaniParams)
    (out : List (String × String))
    (hnd : seqs.Nodup)
    (hec : ∀ ec, ps.external_clustering = some ec → seqs.length ≤ ec.length)
    (hib : ∀ ib, ps.initial_batches = some ib →
      ib.Perm (keysOf (assign_seqs seqs (ps.external_clustering.getD seqs))))
    (hg : ps.guided = true → ∀ fs, (guide fs).length = fs.length)
    (hok : dereplicate hclust guide salt seqs (some ps) = .ok out) :
    (out.map Prod.fst).Perm seqs ∧
    (∀ s, s ∈ seqs → (out.map Prod.fst).count s = 1) ∧
    (∀ s, s ∉ seqs → (out.map Prod.fst).count s = 0) := by
  have hperm := dereplicate_cover hclust guide salt seqs ps out hec hib hg hok
  refine ⟨hperm, ?_, ?_⟩
  · intro sq hs
    rw [hperm.count_eq]
    exact List.count_eq_one_of_mem hnd hs
  · intro sq hs
    rw [hperm.count_eq]
    exact List.count_eq_zero_of_not_mem hs

theorem C1_exact_cover_witness :
    (["a", "b"] : List String).Nodup ∧
    dereplicate (fun l => List.replicate l.length 0)
        (fun l => List.replicate l.length 0) (fun _ _ => 0) ["a", "b"]
        (some defaultParams)
      = .ok [("a", "panANI-0.dbg.fasta"), ("b", "panANI-0.dbg.fasta")] ∧
    (([("a", "panANI-0.dbg.fasta"), ("b", "panANI-0.dbg.fasta")].map
        Prod.fst).Perm ["a", "b"] ∧
      (∀ s, s ∈ (["a", "b"] : List String) →
        ([("a", "panANI-0.dbg.fasta"), ("b", "panANI-0.dbg.fasta")].map
          Prod.fst).count s = 1) ∧
      (∀ s, s ∉ (["a", "b"] : List String) →
        ([("a", "panANI-0.dbg.fasta"), ("b", "panANI-0.dbg.fasta")].map
          Prod.fst).count s = 0)) :=
  ⟨by decide, by decide,
    C1_exact_cover (fun l => List.replicate l.length 0)
      (fun l => List.replicate l.length 0) (fun _ _ => 0) ["a", "b"]
      defaultParams
      [("a", "panANI-0.dbg.fasta"), ("b", "panANI-0.dbg.fasta")]
      (by decide)
      (fun _ h => Option.noConfusion h)
      (fun _ h => Option.noConfusion h)
      (fun h => absurd h (by decide))
      (by decide)⟩

/-- C2: for every well-formed dendrogram (which by the data model has
`N ≥ 1` leaves) and every similarity threshold, `cut_dendrogram` succeeds
and returns exactly `N` group ids whose set of distinct values is
`{0, ..., G-1}` for some `G ≤ N`, and every leaf whose group id was not
produced during the reverse traversal (id at least the traversal's final
group counter) is a brand-new singleton group: its id occurs exactly once. -/
theorem C2_cut_partition_wellformed (d : clust.Dendrogram) (t : ℚ)
    (hwf : clust.WF d) :
    ∃ l, clust.cut_dendrogram d t = some l ∧
      l.length = d.observations ∧
      (∃ G, G ≤ d.observations ∧ l.toFinset = Finset.range G) ∧
      ∀ g, g ∈ l →
        (clust.runSteps d.observations (qsub 1 t) d.steps.enum
          (fun _ => none, 0)).2 ≤ g →
        l.count g = 1 := by
  have hN : d.observations ≠ 0 := by
    have := hwf.1
    omega
  obtain ⟨l, hcut⟩ : ∃ l, clust.cut_dendrogram d t = some l :=
    ⟨_, clust.cut_some d t hN⟩
  obtain ⟨hlen, hG⟩ := clust.cut_partition d t hwf l hcut
  exact ⟨l, hcut, hlen, hG, clust.cut_fresh_count d t hwf l hcut⟩

theorem C2_cut_partition_wellformed_witness :
    clust.WF ⟨[⟨0, 1, mkRat 1 50⟩, ⟨3, 2, mkRat 1 2⟩], 3⟩ ∧
    ∃ l, clust.cut_dendrogram ⟨[⟨0, 1, mkRat 1 50⟩, ⟨3, 2, mkRat 1 2⟩], 3⟩
        (mkRat 97 100) = some l ∧
      l.length = 3 ∧
      (∃ G, G ≤ 3 ∧ l.toFinset = Finset.range G) ∧
      ∀ g, g ∈ l →
        (clust.runSteps 3 (qsub 1 (mkRat 97 100))
          ([⟨0, 1, mkRat 1 50⟩, ⟨3, 2, mkRat 1 2⟩] : List clust.Step).enum
          (fun _ => none, 0)).2 ≤ g →
        l.count g = 1 :=
  ⟨by decide,
    C2_cut_partition_wellformed ⟨[⟨0, 1, mkRat 1 50⟩, ⟨3, 2, mkRat 1 2⟩], 3⟩
      (mkRat 97 100) (by decide)⟩

/-- C3: the claim that the batching loop of `dereplicate` always
terminates is refuted.  The degenerate-remainder adjustment
`while n_remaining % batch_size == 1 { batch_size += 1 }` never exits when
`n_remaining = 1` and `batch_size ≥ 2`, because `1 % b = 1` for every
`b ≥ 2`; this state is reachable: with `initial_batches = some ["a"]`
listing only one of three clusters, the first round silently drops the
other two, leaving one remaining cluster, and the run diverges (modelled
as the `adjustDiverge` error). -/
theorem C3_batching_adjustment_diverges :
    adjustBatch 1 2 = .error .adjustDiverge ∧
    dereplicate (fun l => List.replicate l.length 0)
      (fun l => List.replicate l.length 0) (fun _ _ => 0) ["a", "b", "c"]
      (some ⟨1, "linear", 10, "t", false, none, some ["a"]⟩)
      = .error .adjustDiverge :=
  ⟨by decide, by decide⟩

/-- C4: after each round step (`dereplicate_iter`), every cluster of the
returned assignment that contains exactly one member sequence is labeled
by that sequence's own identifier. -/
theorem C4_singleton_keeps_own_id (hclust : List String → List ℕ)
    (prev : Assignment) (pre : String) (a : Assignment)
    (hok : dereplicate_iter hclust prev pre = .ok a)
    (l : String) (ms : List String) (hmem : (l, ms) ∈ a)
    (hlen : ms.length = 1) : ms = [l] :=
  dereplicate_iter_singleton hclust prev pre a hok l ms hmem hlen

theorem C4_singleton_keeps_own_id_witness :
    dereplicate_iter (fun l => List.range l.length)
        [("a", ["a"]), ("b", ["b"])] "p-"
      = .ok [("a", ["a"]), ("b", ["b"])] ∧
    ("a", ["a"]) ∈ [("a", ["a"]), ("b", ["b"])] ∧
    (["a"] : List String).length = 1 ∧
    (["a"] : List String) = ["a"] :=
  ⟨by decide, by decide, by decide,
    C4_singleton_keeps_own_id (fun l => List.range l.length)
      [("a", ["a"]), ("b", ["b"])] "p-" [("a", ["a"]), ("b", ["b"])]
      (by decide) "a" ["a"] (by decide) (by decide)⟩

/-- C5: the dissimilarity handed to linkage for a pairwise estimate is
`1 - s` exactly when the similarity `s` lies strictly in `(0,1)`, is not
NaN, and the aligned fraction exceeds the configured minimum on at least
one side; in every other case it is exactly `1.0`. -/
theorem C5_dissimilarity_conversion (s rf qf m : F32) :
    clust.linkage_dissim (dist.filter_ani s rf qf m m) =
      if fgt s (some 0) && flt s (some 1) && !fisnan s
          && (fgt rf m || fgt qf m) then
        fsub (some 1) s
      else
        some 1 := by
  by_cases h : (fgt s (some 0) && flt s (some 1) && !fisnan s
      && (fgt rf m || fgt qf m)) = true
  · rw [dist.filter_ani, if_pos h, if_pos h, clust.linkage_dissim]
    have h' := h
    simp only [Bool.and_eq_true] at h'
    rw [if_pos (show (fgt s (some 0) && flt s (some 1) && !fisnan s) = true by
      simp [h'.1.1.1, h'.1.1.2, h'.1.2])]
  · rw [dist.filter_ani, if_neg h, if_neg h, clust.linkage_dissim,
      if_neg (by decide)]

/-- C6: for a fixed well-formed dendrogram and thresholds `t1 ≤ t2`, the
number of distinct groups returned by `cut_dendrogram` at threshold `t1`
is at most the number returned at threshold `t2`. -/
theorem C6_threshold_monotonicity (d : clust.Dendrogram) (t1 t2 : ℚ)
    (hwf : clust.WF d) (h12 : t1 ≤ t2) (l1 l2 : List ℕ)
    (h1 : clust.cut_dendrogram d t1 = some l1)
    (h2 : clust.cut_dendrogram d t2 = some l2) :
    l1.toFinset.card ≤ l2.toFinset.card := by
  rw [clust.cut_card d t1 hwf l1 h1, clust.cut_card d t2 hwf l2 h2]
  have hcut : qsub 1 t2 ≤ qsub 1 t1 := by
    rw [qsub_eq, qsub_eq]
    linarith
  have hcp : d.steps.countP (fun s => decide (s.dissimilarity ≤ qsub 1 t2)) ≤
      d.steps.countP (fun s => decide (s.dissimilarity ≤ qsub 1 t1)) :=
    List.countP_mono_left fun s _ hs =>
      decide_eq_true (le_trans (of_decide_eq_true hs) hcut)
  exact Nat.sub_le_sub_left hcp d.observations

theorem C6_threshold_monotonicity_witness :
    clust.WF ⟨[⟨0, 1, mkRat 1 50⟩, ⟨3, 2, mkRat 1 2⟩], 3⟩ ∧
    mkRat 1 2 ≤ mkRat 97 100 ∧
    clust.cut_dendrogram ⟨[⟨0, 1, mkRat 1 50⟩, ⟨3, 2, mkRat 1 2⟩], 3⟩
      (mkRat 1 2) = some [0, 0, 0] ∧
    clust.cut_dendrogram ⟨[⟨0, 1, mkRat 1 50⟩, ⟨3, 2, mkRat 1 2⟩], 3⟩
      (mkRat 97 100) = some [0, 0, 1] ∧
    ([0, 0, 0] : List ℕ).toFinset.card ≤ ([0, 0, 1] : List ℕ).toFinset.card :=
  ⟨by decide, by decide, by decide, by decide,
    C6_threshold_monotonicity ⟨[⟨0, 1, mkRat 1 50⟩, ⟨3, 2, mkRat 1 2⟩], 3⟩
      (mkRat 1 2) (mkRat 97 100) (by decide) (by decide) [0, 0, 0] [0, 0, 1]
      (by decide) (by decide)⟩

/-- C7: if some old cluster label has no entry in the mapping derived
from the hierarchical-clustering result, then `match_clustering_results`
aborts (returns `none`, the model of the fatal panic) rather than
returning an output with that sequence silently dropped. -/
theorem C7_missing_lookup_fatal (fs old : List String) (h : List ℕ)
    (pre : String) (x : String) (hx : x ∈ old)
    (hmiss : lookupA (buildMap ((fs.insertionSort strLE).zip h)) x = none) :
    match_clustering_results fs old h pre = none := by
  rw [match_clustering_results]
  exact relabel_none_of_missing _ pre old ⟨x, hx, hmiss⟩

theorem C7_missing_lookup_fatal_witness :
    "b" ∈ (["a", "b"] : List String) ∧
    lookupA (buildMap (((["a"] : List String).insertionSort strLE).zip [0]))
      "b" = none ∧
    match_clustering_results ["a"] ["a", "b"] [0] "p-" = none :=
  ⟨by decide, by decide,
    C7_missing_lookup_fatal ["a"] ["a", "b"] [0] "p-" "b" (by decide)
      (by decide)⟩

/-- C8: at the end of each batching round `batch_size` grows by the
configured strategy: `"linear"` adds `batch_step`, `"double"` doubles,
and any unrecognized strategy string adds `batch_step` exactly as
`"linear"` does, without raising an error. -/
theorem C8_batch_growth_strategy (strategy : String) (step bs : ℕ)
    (h1 : strategy ≠ "linear") (h2 : strategy ≠ "double") :
    growBatch "linear" step bs = bs + step ∧
    growBatch "double" step bs = bs * 2 ∧
    growBatch strategy step bs = bs + step := by
  refine ⟨?_, ?_, ?_⟩
  · rw [growBatch, if_pos rfl]
  · rw [growBatch, if_neg (by decide), if_pos rfl]
  · rw [growBatch, if_neg h1, if_neg h2]

theorem C8_batch_growth_strategy_witness :
    ("quadratic" : String) ≠ "linear" ∧
    ("quadratic" : String) ≠ "double" ∧
    (growBatch "linear" 7 5 = 5 + 7 ∧ growBatch "double" 7 5 = 5 * 2 ∧
      growBatch "quadratic" 7 5 = 5 + 7) :=
  ⟨by decide, by decide,
    C8_batch_growth_strategy "quadratic" 7 5 (by decide) (by decide)⟩

/-- C9: the pair list returned by `ani_from_fastx_files` is sorted by
(first id, second id), and — provided the raw pairwise results carry
distinct key pairs — it is the same list no matter in which order the
parallel workers delivered the raw results. -/
theorem C9_ani_canonical_order (raw1 raw2 : List dist.RawPair) (m : F32)
    (hperm : raw1.Perm raw2) (hnd : (raw1.map dist.keyOf).Nodup) :
    (dist.ani_from_fastx_files raw1 m).Pairwise dist.outLE ∧
    dist.ani_from_fastx_files raw1 m = dist.ani_from_fastx_files raw2 m := by
  constructor
  · rw [dist.ani_from_fastx_files]
    exact List.Pairwise.map _ (fun a b hab => hab)
      (List.sorted_insertionSort dist.rawLE raw1)
  · rw [dist.ani_from_fastx_files, dist.ani_from_fastx_files]
    have hp : (raw1.insertionSort dist.rawLE).Perm
        (raw2.insertionSort dist.rawLE) :=
      ((List.perm_insertionSort dist.rawLE raw1).trans hperm).trans
        (List.perm_insertionSort dist.rawLE raw2).symm
    have hnd1 : ((raw1.insertionSort dist.rawLE).map dist.keyOf).Nodup :=
      (((List.perm_insertionSort dist.rawLE raw1).map
        dist.keyOf).nodup_iff).mpr hnd
    rw [dist.sorted_perm_eq _ _ hp (List.sorted_insertionSort dist.rawLE raw1)
      (List.sorted_insertionSort dist.rawLE raw2) hnd1]

theorem C9_ani_canonical_order_witness :
    ([("a", "b", ⟨some (mkRat 99 100), some 1, some 1⟩),
      ("a", "c", ⟨some (mkRat 1 2), some 1, some 1⟩)] :
        List dist.RawPair).Perm
      [("a", "c", ⟨some (mkRat 1 2), some 1, some 1⟩),
       ("a", "b", ⟨some (mkRat 99 100), some 1, some 1⟩)] ∧
    (([("a", "b", ⟨some (mkRat 99 100), some 1, some 1⟩),
       ("a", "c", ⟨some (mkRat 1 2), some 1, some 1⟩)] :
         List dist.RawPair).map dist.keyOf).Nodup ∧
    ((dist.ani_from_fastx_files
        [("a", "b", ⟨some (mkRat 99 100), some 1, some 1⟩),
         ("a", "c", ⟨some (mkRat 1 2), some 1, some 1⟩)]
        (some 0)).Pairwise dist.outLE ∧
      dist.ani_from_fastx_files
          [("a", "b", ⟨some (mkRat 99 100), some 1, some 1⟩),
           ("a", "c", ⟨some (mkRat 1 2), some 1, some 1⟩)] (some 0)
        = dist.ani_from_fastx_files
            [("a", "c", ⟨some (mkRat 1 2), some 1, some 1⟩),
             ("a", "b", ⟨some (mkRat 99 100), some 1, some 1⟩)] (some 0)) :=
  ⟨List.Perm.swap _ _ _, by decide,
    C9_ani_canonical_order
      [("a", "b", ⟨some (mkRat 99 100), some 1, some 1⟩),
       ("a", "c", ⟨some (mkRat 1 2), some 1, some 1⟩)]
      [("a", "c", ⟨some (mkRat 1 2), some 1, some 1⟩),
       ("a", "b", ⟨some (mkRat 99 100), some 1, some 1⟩)]
      (some 0) (List.Perm.swap _ _ _) (by decide)⟩

/-- C10: `cut_dendrogram` has an unstated precondition of at least one
observation.  With `N = 0` observations the `2 * N - 1` allocation
underflows and the Rust function panics (modelled as `none`); for every
well-formed dendrogram (`N ≥ 1`) all step child indices stay below
`2 * N - 1` and the cut succeeds with a result of length exactly `N`. -/
theorem C10_cut_needs_observations (d : clust.Dendrogram) (t : ℚ) :
    (d.observations = 0 → clust.cut_dendrogram d t = none) ∧
    (clust.WF d →
      (∀ j, j < d.steps.length →
        (clust.stepAt d.steps j).cluster1 < 2 * d.observations - 1 ∧
        (clust.stepAt d.steps j).cluster2 < 2 * d.observations - 1) ∧
      ∃ l, clust.cut_dendrogram d t = some l ∧
        l.length = d.observations) := by
  constructor
  · intro h0
    rw [clust.cut_dendrogram, if_pos h0]
  · intro hwf
    have hN : d.observations ≠ 0 := by
      have := hwf.1
      omega
    constructor
    · intro j hj
      have hb := clust.wf_bounds hwf j hj
      have hlen := hwf.1
      omega
    · exact ⟨_, clust.cut_some d t hN,
        (clust.cut_partition d t hwf _ (clust.cut_some d t hN)).1⟩

theorem C10_cut_needs_observations_witness :
    clust.WF ⟨[⟨0, 1, mkRat 1 50⟩, ⟨3, 2, mkRat 1 2⟩], 3⟩ ∧
    ((∀ j, j < ([⟨0, 1, mkRat 1 50⟩, ⟨3, 2, mkRat 1 2⟩] :
        List clust.Step).length →
      (clust.stepAt [⟨0, 1, mkRat 1 50⟩, ⟨3, 2, mkRat 1 2⟩] j).cluster1
          < 2 * 3 - 1 ∧
      (clust.stepAt [⟨0, 1, mkRat 1 50⟩, ⟨3, 2, mkRat 1 2⟩] j).cluster2
          < 2 * 3 - 1) ∧
    ∃ l, clust.cut_dendrogram ⟨[⟨0, 1, mkRat 1 50⟩, ⟨3, 2, mkRat 1 2⟩], 3⟩
        (mkRat 97 100) = some l ∧ l.length = 3) :=
  ⟨by decide,
    (C10_cut_needs_observations ⟨[⟨0, 1, mkRat 1 50⟩, ⟨3, 2, mkRat 1 2⟩], 3⟩
      (mkRat 97 100)).2 (by decide)⟩

end Panaani
